import Mathlib

/-!
A verification development for the oPL parser (`src/parser.rs`).

The parser is embedded shallowly: the `Parser` struct's mutable state becomes
the explicit record `PState`, every parsing method becomes a Lean function
threading that state, and Rust's `Option<T>` results are Lean `Option`s.
The recursive-descent engine is made total with a fuel parameter (outer
`Option.none` = fuel exhausted; adequate fuel is established below), so that
every definition is executable.  The two `left.unwrap()` calls in the infix
loop of `parse_expression` can panic in Rust; a panic is represented
explicitly by `POut.panicked`.

`Token` (from `lexer.rs`, not part of the sources) and the AST types (from
`ast.rs`, not part of the sources) are modelled from the spec and from the
way `parser.rs` uses them; everything else is translated directly from
`parser.rs`.  The public helper `parse_fn_parameters` (lines 346-363) is
dead code — nothing in the file calls it — and is not modelled.
-/

namespace OPL

set_option maxHeartbeats 1600000 in
/-- Modelled from the spec: the lexer's `Token` enumeration (`lexer.rs` is not
under `src/`).  Variants are those referenced by `parser.rs` and listed in
spec §6: keywords, punctuation, operators, literals, the uppercase and
lowercase built-in type-name tokens, and the end-of-stream sentinel `End`.
`Token::Type` is rendered `TypeKw` because `Type` is a Lean keyword. -/
inductive Token where
  | Identifier (s : String)
  | IntegerLiteral (s : String)
  | FloatLiteral (s : String)
  | Boolean (b : Bool)
  | Let
  | Return
  | TypeKw
  | Fn
  | If
  | Else
  | Of
  | Some
  | None
  | Ok
  | Error
  | Assign
  | SemiColon
  | Colon
  | Comma
  | LeftParen
  | RightParen
  | LeftBrace
  | RightBrace
  | Vbar
  | Arrow
  | Plus
  | Minus
  | Product
  | ForwardSlash
  | Modulo
  | Period
  | Equal
  | DoesNotEqual
  | LessThan
  | GreaterThan
  | GTOrEqual
  | LTOrEqual
  | Pipe
  | Cons
  | Concat
  | Ampersand
  | Caret
  | Bang
  | Int
  | Float
  | String
  | Char
  | Bool
  | Unit
  | List
  | Option
  | Result
  | Map
  | IntType
  | FloatType
  | StringType
  | CharType
  | BoolType
  | UnitType
  | End
deriving Repr
/-- Constructor index of a token.  Token equality (Rust's derived
`PartialEq`) is defined through the `tag`/payload encoding below; the
automatic `DecidableEq` derivation produces an unwieldy term for a
60-constructor enumeration. -/
def tokenTag : Token → Nat
  | Token.Identifier _ => 0
  | Token.IntegerLiteral _ => 1
  | Token.FloatLiteral _ => 2
  | Token.Boolean _ => 3
  | Token.Let => 4
  | Token.Return => 5
  | Token.TypeKw => 6
  | Token.Fn => 7
  | Token.If => 8
  | Token.Else => 9
  | Token.Of => 10
  | Token.Some => 11
  | Token.None => 12
  | Token.Ok => 13
  | Token.Error => 14
  | Token.Assign => 15
  | Token.SemiColon => 16
  | Token.Colon => 17
  | Token.Comma => 18
  | Token.LeftParen => 19
  | Token.RightParen => 20
  | Token.LeftBrace => 21
  | Token.RightBrace => 22
  | Token.Vbar => 23
  | Token.Arrow => 24
  | Token.Plus => 25
  | Token.Minus => 26
  | Token.Product => 27
  | Token.ForwardSlash => 28
  | Token.Modulo => 29
  | Token.Period => 30
  | Token.Equal => 31
  | Token.DoesNotEqual => 32
  | Token.LessThan => 33
  | Token.GreaterThan => 34
  | Token.GTOrEqual => 35
  | Token.LTOrEqual => 36
  | Token.Pipe => 37
  | Token.Cons => 38
  | Token.Concat => 39
  | Token.Ampersand => 40
  | Token.Caret => 41
  | Token.Bang => 42
  | Token.Int => 43
  | Token.Float => 44
  | Token.String => 45
  | Token.Char => 46
  | Token.Bool => 47
  | Token.Unit => 48
  | Token.List => 49
  | Token.Option => 50
  | Token.Result => 51
  | Token.Map => 52
  | Token.IntType => 53
  | Token.FloatType => 54
  | Token.StringType => 55
  | Token.CharType => 56
  | Token.BoolType => 57
  | Token.UnitType => 58
  | Token.End => 59

/-- String payload of a token (empty for payload-free constructors). -/
def tokenStrPayload : Token → String
  | Token.Identifier s => s
  | Token.IntegerLiteral s => s
  | Token.FloatLiteral s => s
  | _ => ""

/-- Boolean payload of a token (`false` for payload-free constructors). -/
def tokenBoolPayload : Token → Bool
  | Token.Boolean b => b
  | _ => false

/-- Decoder inverse to `tokenTag`/`tokenStrPayload`/`tokenBoolPayload`. -/
def tokenOfTag (i : Nat) (s : String) (b : Bool) : Token :=
  match i with
  | 0 => Token.Identifier s
  | 1 => Token.IntegerLiteral s
  | 2 => Token.FloatLiteral s
  | 3 => Token.Boolean b
  | 4 => Token.Let
  | 5 => Token.Return
  | 6 => Token.TypeKw
  | 7 => Token.Fn
  | 8 => Token.If
  | 9 => Token.Else
  | 10 => Token.Of
  | 11 => Token.Some
  | 12 => Token.None
  | 13 => Token.Ok
  | 14 => Token.Error
  | 15 => Token.Assign
  | 16 => Token.SemiColon
  | 17 => Token.Colon
  | 18 => Token.Comma
  | 19 => Token.LeftParen
  | 20 => Token.RightParen
  | 21 => Token.LeftBrace
  | 22 => Token.RightBrace
  | 23 => Token.Vbar
  | 24 => Token.Arrow
  | 25 => Token.Plus
  | 26 => Token.Minus
  | 27 => Token.Product
  | 28 => Token.ForwardSlash
  | 29 => Token.Modulo
  | 30 => Token.Period
  | 31 => Token.Equal
  | 32 => Token.DoesNotEqual
  | 33 => Token.LessThan
  | 34 => Token.GreaterThan
  | 35 => Token.GTOrEqual
  | 36 => Token.LTOrEqual
  | 37 => Token.Pipe
  | 38 => Token.Cons
  | 39 => Token.Concat
  | 40 => Token.Ampersand
  | 41 => Token.Caret
  | 42 => Token.Bang
  | 43 => Token.Int
  | 44 => Token.Float
  | 45 => Token.String
  | 46 => Token.Char
  | 47 => Token.Bool
  | 48 => Token.Unit
  | 49 => Token.List
  | 50 => Token.Option
  | 51 => Token.Result
  | 52 => Token.Map
  | 53 => Token.IntType
  | 54 => Token.FloatType
  | 55 => Token.StringType
  | 56 => Token.CharType
  | 57 => Token.BoolType
  | 58 => Token.UnitType
  | 59 => Token.End
  | _ => Token.End

/-- Roundtrip of the tag/payload encoding of `Token`: rebuilding a token
from its constructor index and payloads yields the token itself. -/
def tokenOfTag_tag (t : Token) :
    tokenOfTag (tokenTag t) (tokenStrPayload t) (tokenBoolPayload t) = t := by
  cases t <;> rfl

/-- Decidable token equality: two tokens are equal iff their constructor
index and payloads agree (Rust's derived `PartialEq` on `Token`). -/
instance : DecidableEq Token := fun a b =>
  if h : tokenTag a = tokenTag b ∧ tokenStrPayload a = tokenStrPayload b ∧
      tokenBoolPayload a = tokenBoolPayload b then
    Decidable.isTrue
      (calc a = tokenOfTag (tokenTag a) (tokenStrPayload a) (tokenBoolPayload a) :=
            (tokenOfTag_tag a).symm
        _ = tokenOfTag (tokenTag b) (tokenStrPayload b) (tokenBoolPayload b) := by
            rw [h.1, h.2.1, h.2.2]
        _ = b := tokenOfTag_tag b)
  else
    Decidable.isFalse (fun hc => h (by rw [hc]; exact ⟨rfl, rfl, rfl⟩))


/-- `parser.rs` lines 4-17: enum `Precedence`.  `Precedence::Prefix` is
rendered `PrefixLevel` to avoid a reserved suffix. -/
inductive Precedence where
  | Lowest
  | Pipe
  | Equals
  | LessGreater
  | Sum
  | Product
  | Cons
  | PrefixLevel
  | BitwiseOp
  | Call
deriving DecidableEq, Repr

/-- The rank used by the derived `PartialOrd` on `Precedence` (declaration
order of the variants). -/
def Precedence.toNat : Precedence → Nat
  | Precedence.Lowest => 0
  | Precedence.Pipe => 1
  | Precedence.Equals => 2
  | Precedence.LessGreater => 3
  | Precedence.Sum => 4
  | Precedence.Product => 5
  | Precedence.Cons => 6
  | Precedence.PrefixLevel => 7
  | Precedence.BitwiseOp => 8
  | Precedence.Call => 9

/-- Rust's derived `<` on `Precedence` (total on this C-like enum). -/
def precLt (a b : Precedence) : Bool := a.toNat < b.toNat

/-- `parser.rs` lines 19-33: `token_to_precedence`. -/
def token_to_precedence : Token → Precedence
  | Token.Pipe => Precedence.Pipe
  | Token.Equal | Token.DoesNotEqual => Precedence.Equals
  | Token.LessThan | Token.GreaterThan | Token.GTOrEqual | Token.LTOrEqual =>
      Precedence.LessGreater
  | Token.Plus | Token.Minus => Precedence.Sum
  | Token.Product | Token.ForwardSlash | Token.Period | Token.Modulo => Precedence.Product
  | Token.Cons | Token.Concat => Precedence.Cons
  | Token.Ampersand | Token.Caret => Precedence.BitwiseOp
  | Token.LeftParen => Precedence.Call
  | _ => Precedence.Lowest

/-- `parser.rs` lines 35-39: enum `ParseError`.
`UnexpectedToken { want, got }` and `Log(String)`. -/
inductive ParseError where
  | UnexpectedToken (want : Option Token) (got : Token)
  | Log (s : String)
deriving DecidableEq, Repr

/-- Modelled from the spec: `ast.rs` is not under `src/`.  Spec §3 gives
`Literal{Integer|Float|Boolean}`.  The `Float` payload keeps the source text
of the literal: IEEE value semantics are outside this embedding (no claim
inspects a float value), while parse success/failure of the text is modelled
by `floatOk` below. -/
inductive Literal where
  | Integer (i : Int)
  | Float (raw : String)
  | Boolean (b : Bool)
deriving DecidableEq, Repr

/-- Modelled from the spec: the `Prefix` operator enum of `ast.rs`, with the
variants `parser.rs` constructs (lines 417-428). -/
inductive PrefixOp where
  | Bang
  | Minus
  | Plus
deriving DecidableEq, Repr

/-- Modelled from the spec: the `Infix` operator enum of `ast.rs`.  The first
thirteen variants are those `parse_infix_expression` can construct
(lines 435-450); `Modulo`, `Period`, `Ampersand` and `Caret` appear in the
precedence table / the commented-out lines 431-433 but are never built. -/
inductive InfixOp where
  | Plus
  | Minus
  | Product
  | ForwardSlash
  | Equal
  | DoesNotEqual
  | LessThan
  | GreaterThan
  | GTOrEqual
  | LTOrEqual
  | Pipe
  | Cons
  | Concat
  | Modulo
  | Period
  | Ampersand
  | Caret
deriving DecidableEq, Repr

/-- Modelled from the spec: the fixed built-in constructor set of a
`TypeReference` (spec §3). -/
inductive Constructor where
  | Int
  | Float
  | String
  | Char
  | Bool
  | Unit
  | List
  | Option
  | Result
  | Map
deriving DecidableEq, Repr

/-- Modelled from the spec: a type-reference head is a built-in constructor
or a custom identifier token (`TypeConstructor::BuiltIn` / `Custom`). -/
inductive TypeConstructor where
  | BuiltIn (c : Constructor)
  | Custom (t : Token)
deriving DecidableEq, Repr

/-- Modelled from the spec: `Alias` — a constructor name plus an ordered list
of nested type parameters (spec §3 "TypeReference"). -/
inductive Alias where
  | mk (name : TypeConstructor) (parameters : List Alias)
deriving Repr

/-- Modelled from the spec: the `Type` enum of `ast.rs` (spec §3
"TypeDefinition"): alias, record with ordered fields, union with ordered
variants.  Rendered `TypeDef` because `Type` is a Lean keyword. -/
inductive TypeDef where
  | Alias (a : Alias)
  | Record (fields : List (Token × Alias))
  | Union (variants : List (Token × Option Alias))
deriving Repr

mutual
/-- Modelled from the spec: the `Expression` enum of `ast.rs` (spec §3), with
the fields `parser.rs` populates.  `Prefix`/`Infix` are rendered
`PrefixE`/`InfixE` to avoid reserved suffixes. -/
inductive Expression where
  | Identifier (t : Token)
  | Literal (l : Literal)
  | PrefixE (op : PrefixOp) (operand : Expression)
  | InfixE (op : InfixOp) (left : Expression) (right : Expression)
  | If (condition : Expression) (consequence : List Statement)
      (alternative : Option (List Statement))
  | Function (parameters : List Token) (body : List Statement)
  | Call (function : Expression) (arguments : List Expression)
  | OptionSome (e : Expression)
  | OptionNone
  | ResultOk (e : Expression)
  | ResultErr (e : Expression)
deriving Repr
/-- Modelled from the spec: the `Statement` enum of `ast.rs` (spec §3).
`Type(name, TypeDefinition)` is rendered `TypeDecl`. -/
inductive Statement where
  | Let (name : Token) (value : Expression)
  | Return (e : Expression)
  | Expression (e : Expression)
  | TypeDecl (name : Token) (td : TypeDef)
deriving Repr
end

/-- Spec §3: `Program` — an ordered sequence of statements. -/
abbrev Program := List Statement

/-- The `Parser` struct's mutable state (`parser.rs` lines 43-48): the
remaining lexer input (`rem`, consumed one token at a time, padding with
`End` after exhaustion, per the spec's absorbing-sentinel invariant), the
two-token lookahead window `curr`/`peek`, and the append-only `errors` list.
`steps` is ghost instrumentation counting calls of `next_token` (cursor
advances); no parsing decision reads it. -/
structure PState where
  rem : List Token
  curr : Token
  peek : Token
  errors : List ParseError
  steps : Nat
deriving DecidableEq, Repr

/-- `parser.rs` lines 63-66: `next_token` shifts `peek` into `curr` and pulls
the next lexer token (the `End` sentinel once the stream is exhausted) into
`peek`. -/
def next_token (s : PState) : PState :=
  match s.rem with
  | [] => { s with curr := s.peek, peek := Token.End, steps := s.steps + 1 }
  | t :: ts => { s with curr := s.peek, peek := t, rem := ts, steps := s.steps + 1 }

/-- `Parser::new` (lines 51-61): both lookahead slots start as `End` and are
primed by advancing twice. -/
def initState (tokens : List Token) : PState :=
  next_token (next_token { rem := tokens, curr := Token.End, peek := Token.End,
                           errors := [], steps := 0 })

/-- Rust's derived `Debug` formatting of a token, as used by the `format!`
calls in the parser's diagnostics (string payloads are shown quoted; none of
the inputs in this development need character escaping). -/
def tokenDebug : Token → String
  | Token.Identifier s => "Identifier(\"" ++ s ++ "\")"
  | Token.IntegerLiteral s => "IntegerLiteral(\"" ++ s ++ "\")"
  | Token.FloatLiteral s => "FloatLiteral(\"" ++ s ++ "\")"
  | Token.Boolean b => "Boolean(" ++ (if b then "true" else "false") ++ ")"
  | Token.Let => "Let"
  | Token.Return => "Return"
  | Token.TypeKw => "Type"
  | Token.Fn => "Fn"
  | Token.If => "If"
  | Token.Else => "Else"
  | Token.Of => "Of"
  | Token.Some => "Some"
  | Token.None => "None"
  | Token.Ok => "Ok"
  | Token.Error => "Error"
  | Token.Assign => "Assign"
  | Token.SemiColon => "SemiColon"
  | Token.Colon => "Colon"
  | Token.Comma => "Comma"
  | Token.LeftParen => "LeftParen"
  | Token.RightParen => "RightParen"
  | Token.LeftBrace => "LeftBrace"
  | Token.RightBrace => "RightBrace"
  | Token.Vbar => "Vbar"
  | Token.Arrow => "Arrow"
  | Token.Plus => "Plus"
  | Token.Minus => "Minus"
  | Token.Product => "Product"
  | Token.ForwardSlash => "ForwardSlash"
  | Token.Modulo => "Modulo"
  | Token.Period => "Period"
  | Token.Equal => "Equal"
  | Token.DoesNotEqual => "DoesNotEqual"
  | Token.LessThan => "LessThan"
  | Token.GreaterThan => "GreaterThan"
  | Token.GTOrEqual => "GTOrEqual"
  | Token.LTOrEqual => "LTOrEqual"
  | Token.Pipe => "Pipe"
  | Token.Cons => "Cons"
  | Token.Concat => "Concat"
  | Token.Ampersand => "Ampersand"
  | Token.Caret => "Caret"
  | Token.Bang => "Bang"
  | Token.Int => "Int"
  | Token.Float => "Float"
  | Token.String => "String"
  | Token.Char => "Char"
  | Token.Bool => "Bool"
  | Token.Unit => "Unit"
  | Token.List => "List"
  | Token.Option => "Option"
  | Token.Result => "Result"
  | Token.Map => "Map"
  | Token.IntType => "IntType"
  | Token.FloatType => "FloatType"
  | Token.StringType => "StringType"
  | Token.CharType => "CharType"
  | Token.BoolType => "BoolType"
  | Token.UnitType => "UnitType"
  | Token.End => "End"

/-- Value of a non-empty all-digit character list, else `none` (helper for
`parseI64`). -/
def digitsVal (cs : List Char) : Option Nat :=
  match cs with
  | [] => Option.none
  | _ =>
    if cs.all Char.isDigit then
      Option.some (cs.foldl (fun acc c => acc * 10 + (c.toNat - 48)) 0)
    else Option.none

/-- Rust's `str::parse::<i64>`: an optional sign, one or more ASCII digits,
and a range check against the i64 bounds (overflow is an error, not a
wrap-around). -/
def parseI64 (str : String) : Option Int :=
  match str.toList with
  | '-' :: rest =>
    (match digitsVal rest with
     | Option.none => Option.none
     | Option.some n => if n ≤ 2 ^ 63 then Option.some (-(n : Int)) else Option.none)
  | '+' :: rest =>
    (match digitsVal rest with
     | Option.none => Option.none
     | Option.some n => if n < 2 ^ 63 then Option.some (n : Int) else Option.none)
  | cs =>
    (match digitsVal cs with
     | Option.none => Option.none
     | Option.some n => if n < 2 ^ 63 then Option.some (n : Int) else Option.none)

/-- Rust's `str::parse::<f64>` restricted to the numeric-literal shapes the
lexer emits (an optional sign, digits with at most one decimal point, at
least one digit).  Exponent/`inf`/`nan` forms are not modelled; no claim
exercises a float literal. -/
def floatOk (str : String) : Bool :=
  let cs := match str.toList with
    | '+' :: rest => rest
    | '-' :: rest => rest
    | cs => cs
  cs.any Char.isDigit && cs.all (fun c => c.isDigit || c = '.') &&
    (cs.filter (fun c => c = '.')).length ≤ 1

/-- `curr_token_is` (lines 139-141). -/
def curr_token_is (s : PState) (token : Token) : Bool := s.curr = token

/-- `peek_token_is` (lines 150-152). -/
def peek_token_is (s : PState) (token : Token) : Bool := s.peek = token

/-- `peek_error` (lines 143-148): push `UnexpectedToken { want, got: peek }`. -/
def peek_error (s : PState) (token : Token) : PState :=
  { s with errors := s.errors ++ [ParseError.UnexpectedToken (Option.some token) s.peek] }

/-- `expect_peek` (lines 154-162): advance on match, otherwise record a
`peek_error` and report failure. -/
def expect_peek (s : PState) (token : Token) : Bool × PState :=
  if s.peek = token then (true, next_token s) else (false, peek_error s token)

/-- `parse_identifier` (lines 132-137). -/
def parse_identifier (s : PState) : Option Token :=
  match s.curr with
  | Token.Identifier _ => Option.some s.curr
  | _ => Option.none

/-- `curr_precedence` (lines 168-170). -/
def curr_precedence (s : PState) : Precedence := token_to_precedence s.curr

/-- `no_prefix_parse_fn_error` (lines 172-177). -/
def no_prefix_parse_fn_error (s : PState) (t : Token) : PState :=
  { s with errors := s.errors ++
      [ParseError.Log ("No prefix parse function for " ++ tokenDebug t ++ " found")] }

/-- The operator mapping of `parse_infix_expression` (lines 435-450);
`Token::GTOrEqual`/`LTOrEqual` are mapped here even though the infix loop
never dispatches them. -/
def infixOfToken : Token → Option InfixOp
  | Token.Plus => Option.some InfixOp.Plus
  | Token.Minus => Option.some InfixOp.Minus
  | Token.Product => Option.some InfixOp.Product
  | Token.ForwardSlash => Option.some InfixOp.ForwardSlash
  | Token.Equal => Option.some InfixOp.Equal
  | Token.DoesNotEqual => Option.some InfixOp.DoesNotEqual
  | Token.LessThan => Option.some InfixOp.LessThan
  | Token.GreaterThan => Option.some InfixOp.GreaterThan
  | Token.GTOrEqual => Option.some InfixOp.GTOrEqual
  | Token.LTOrEqual => Option.some InfixOp.LTOrEqual
  | Token.Pipe => Option.some InfixOp.Pipe
  | Token.Cons => Option.some InfixOp.Cons
  | Token.Concat => Option.some InfixOp.Concat
  | _ => Option.none

/-- The operator mapping of `parse_prefix_expression` (lines 418-423). -/
def prefixOfToken : Token → Option PrefixOp
  | Token.Bang => Option.some PrefixOp.Bang
  | Token.Minus => Option.some PrefixOp.Minus
  | Token.Plus => Option.some PrefixOp.Plus
  | _ => Option.none

/-!
The type-declaration cluster (`parse_type_statement` and its helpers,
lines 505-781).  These functions return `Option (Option α × PState)`:
the outer `Option` is the fuel channel (`none` = fuel exhausted, never the
program's behaviour), the inner `Option α` is the Rust function's own
`Option` result, threaded with the parser state.
-/

/-- `parse_type_annotation` (lines 628-712), the uppercase type vocabulary
used for unions and aliases.  (Name shortened: `annotation` ends in a
reserved suffix.)  Rust's Unicode `char::is_lowercase` is modelled by
`Char.isLower`; all identifiers in this development are ASCII. -/
def parse_type_ann : Nat → PState → Option (Option Alias × PState)
  | 0, _ => Option.none
  | fuel+1, s =>
    match s.curr with
    | Token.Int => Option.some (Option.some (Alias.mk (TypeConstructor.BuiltIn Constructor.Int) []), s)
    | Token.Float => Option.some (Option.some (Alias.mk (TypeConstructor.BuiltIn Constructor.Float) []), s)
    | Token.String => Option.some (Option.some (Alias.mk (TypeConstructor.BuiltIn Constructor.String) []), s)
    | Token.Char => Option.some (Option.some (Alias.mk (TypeConstructor.BuiltIn Constructor.Char) []), s)
    | Token.Bool => Option.some (Option.some (Alias.mk (TypeConstructor.BuiltIn Constructor.Bool) []), s)
    | Token.Unit => Option.some (Option.some (Alias.mk (TypeConstructor.BuiltIn Constructor.Unit) []), s)
    | Token.List =>
      (match parse_type_ann fuel (next_token s) with
       | Option.none => Option.none
       | Option.some (Option.none, s1) => Option.some (Option.none, s1)
       | Option.some (Option.some param, s1) =>
         Option.some (Option.some (Alias.mk (TypeConstructor.BuiltIn Constructor.List) [param]), s1))
    | Token.Option =>
      (match parse_type_ann fuel (next_token s) with
       | Option.none => Option.none
       | Option.some (Option.none, s1) => Option.some (Option.none, s1)
       | Option.some (Option.some param, s1) =>
         Option.some (Option.some (Alias.mk (TypeConstructor.BuiltIn Constructor.Option) [param]), s1))
    | Token.Result =>
      (match parse_type_ann fuel (next_token s) with
       | Option.none => Option.none
       | Option.some (Option.none, s1) => Option.some (Option.none, s1)
       | Option.some (Option.some param, s1) =>
         Option.some (Option.some (Alias.mk (TypeConstructor.BuiltIn Constructor.Result) [param]), s1))
    | Token.Map =>
      (match parse_type_ann fuel (next_token s) with
       | Option.none => Option.none
       | Option.some (Option.none, s1) => Option.some (Option.none, s1)
       | Option.some (Option.some param, s1) =>
         Option.some (Option.some (Alias.mk (TypeConstructor.BuiltIn Constructor.Map) [param]), s1))
    | Token.Identifier name =>
      if (name.toList.headD '_').isLower then
        Option.some (Option.none,
          { s with errors := s.errors ++ [ParseError.Log
              ("Custom type identifier \x27" ++ name ++ "\x27 must start with uppercase letter")] })
      else
        Option.some (Option.some (Alias.mk (TypeConstructor.Custom s.curr) []), s)
    | _ =>
      Option.some (Option.none,
        { s with errors := s.errors ++ [ParseError.Log
            ("Expected type name, got " ++ tokenDebug s.curr)] })

/-- `parse_record_type_annotation` (lines 714-781), the lowercase primitive
vocabulary used for record fields.  Only `List` among the parametrized
constructors has an arm (its parameter recursing through this same record
vocabulary); `Option`/`Result`/`Map` fall through to the failure arm. -/
def parse_record_type_ann : Nat → PState → Option (Option Alias × PState)
  | 0, _ => Option.none
  | fuel+1, s =>
    match s.curr with
    | Token.IntType => Option.some (Option.some (Alias.mk (TypeConstructor.BuiltIn Constructor.Int) []), s)
    | Token.FloatType => Option.some (Option.some (Alias.mk (TypeConstructor.BuiltIn Constructor.Float) []), s)
    | Token.StringType => Option.some (Option.some (Alias.mk (TypeConstructor.BuiltIn Constructor.String) []), s)
    | Token.CharType => Option.some (Option.some (Alias.mk (TypeConstructor.BuiltIn Constructor.Char) []), s)
    | Token.BoolType => Option.some (Option.some (Alias.mk (TypeConstructor.BuiltIn Constructor.Bool) []), s)
    | Token.UnitType => Option.some (Option.some (Alias.mk (TypeConstructor.BuiltIn Constructor.Unit) []), s)
    | Token.List =>
      (match parse_record_type_ann fuel (next_token s) with
       | Option.none => Option.none
       | Option.some (Option.none, s1) => Option.some (Option.none, s1)
       | Option.some (Option.some param, s1) =>
         Option.some (Option.some (Alias.mk (TypeConstructor.BuiltIn Constructor.List) [param]), s1))
    | Token.Identifier name =>
      if (name.toList.headD '_').isLower then
        Option.some (Option.none,
          { s with errors := s.errors ++ [ParseError.Log
              ("Custom type identifier \x27" ++ name ++ "\x27 must start with uppercase letter")] })
      else
        Option.some (Option.some (Alias.mk (TypeConstructor.Custom s.curr) []), s)
    | _ =>
      Option.some (Option.none,
        { s with errors := s.errors ++ [ParseError.Log
            ("Expected type name, got " ++ tokenDebug s.curr)] })

/-- The `loop` of `parse_union_type` (lines 534-574), with the accumulated
variant list made explicit.  After pushing a variant: if `peek` is not `|`
the loop breaks and the terminating `;` is demanded; otherwise the `|` is
consumed and the loop repeats (its head advancing onto the variant name). -/
def parse_union_loop : Nat → List (Token × Option Alias) → PState → Option (Option TypeDef × PState)
  | 0, _, _ => Option.none
  | fuel+1, variants, s =>
    let s1 := next_token s
    match s1.curr with
    | Token.Identifier _ =>
      let variant_name := s1.curr
      if s1.peek = Token.Of then
        match parse_type_ann fuel (next_token (next_token s1)) with
        | Option.none => Option.none
        | Option.some (Option.none, s3) => Option.some (Option.none, s3)
        | Option.some (Option.some t, s3) =>
          let variants1 := variants ++ [(variant_name, Option.some t)]
          if s3.peek = Token.Vbar then parse_union_loop fuel variants1 (next_token s3)
          else
            let r := expect_peek s3 Token.SemiColon
            if r.1 then Option.some (Option.some (TypeDef.Union variants1), r.2)
            else Option.some (Option.none, r.2)
      else
        let variants1 := variants ++ [(variant_name, Option.none)]
        if s1.peek = Token.Vbar then parse_union_loop fuel variants1 (next_token s1)
        else
          let r := expect_peek s1 Token.SemiColon
          if r.1 then Option.some (Option.some (TypeDef.Union variants1), r.2)
          else Option.some (Option.none, r.2)
    | _ =>
      Option.some (Option.none,
        { s1 with errors := s1.errors ++ [ParseError.Log
            ("Expected variant name, got " ++ tokenDebug s1.curr)] })

/-- `parse_union_type` starts its loop with no variants collected. -/
def parse_union_type (fuel : Nat) (s : PState) : Option (Option TypeDef × PState) :=
  parse_union_loop fuel [] s

/-- The field loop of `parse_record_type` (lines 576-614) with the
accumulated field list explicit; when `peek` reaches `}` the loop exits and
the closing `}` and the `;` after it are both demanded via `expect_peek`. -/
def parse_record_loop : Nat → List (Token × Alias) → PState → Option (Option TypeDef × PState)
  | 0, _, _ => Option.none
  | fuel+1, fields, s =>
    if s.peek = Token.RightBrace then
      let r1 := expect_peek s Token.RightBrace
      if r1.1 then
        let r2 := expect_peek r1.2 Token.SemiColon
        if r2.1 then Option.some (Option.some (TypeDef.Record fields), r2.2)
        else Option.some (Option.none, r2.2)
      else Option.some (Option.none, r1.2)
    else
      let s1 := next_token s
      match s1.curr with
      | Token.Identifier _ =>
        let field_name := s1.curr
        let r := expect_peek s1 Token.Colon
        if r.1 then
          match parse_record_type_ann fuel (next_token r.2) with
          | Option.none => Option.none
          | Option.some (Option.none, s4) => Option.some (Option.none, s4)
          | Option.some (Option.some type_ann, s4) =>
            let s5 := if s4.peek = Token.Comma then next_token s4 else s4
            parse_record_loop fuel (fields ++ [(field_name, type_ann)]) s5
        else Option.some (Option.none, r.2)
      | _ =>
        Option.some (Option.none,
          { s1 with errors := s1.errors ++ [ParseError.Log
              ("Expected field name, got " ++ tokenDebug s1.curr)] })

/-- `parse_record_type` starts its loop with no fields collected. -/
def parse_record_type (fuel : Nat) (s : PState) : Option (Option TypeDef × PState) :=
  parse_record_loop fuel [] s

/-- `parse_type_alias` (lines 616-626). -/
def parse_type_alias (fuel : Nat) (s : PState) : Option (Option TypeDef × PState) :=
  match parse_type_ann fuel s with
  | Option.none => Option.none
  | Option.some (Option.none, s1) => Option.some (Option.none, s1)
  | Option.some (Option.some t, s1) =>
    let r := expect_peek s1 Token.SemiColon
    if r.1 then Option.some (Option.some (TypeDef.Alias t), r.2)
    else Option.some (Option.none, r.2)

/-- `parse_type_statement` (lines 505-532).  Note the silent failure when the
token after `type` is not an identifier: no diagnostic is appended there. -/
def parse_type_statement (fuel : Nat) (s : PState) : Option (Option Statement × PState) :=
  let s1 := next_token s
  match parse_identifier s1 with
  | Option.none => Option.some (Option.none, s1)
  | Option.some name =>
    let r := expect_peek s1 Token.Assign
    if r.1 then
      if r.2.peek = Token.Vbar then
        match parse_union_type fuel (next_token r.2) with
        | Option.none => Option.none
        | Option.some (Option.none, s4) => Option.some (Option.none, s4)
        | Option.some (Option.some td, s4) =>
          Option.some (Option.some (Statement.TypeDecl name td), s4)
      else
        let s3 := next_token r.2
        match s3.curr with
        | Token.LeftBrace =>
          (match parse_record_type fuel s3 with
           | Option.none => Option.none
           | Option.some (Option.none, s4) => Option.some (Option.none, s4)
           | Option.some (Option.some td, s4) =>
             Option.some (Option.some (Statement.TypeDecl name td), s4))
        | _ =>
          (match parse_type_alias fuel s3 with
           | Option.none => Option.none
           | Option.some (Option.none, s4) => Option.some (Option.none, s4)
           | Option.some (Option.some td, s4) =>
             Option.some (Option.some (Statement.TypeDecl name td), s4))
    else Option.some (Option.none, r.2)

/-!
The expression/statement cluster (`parse_program` down to
`parse_some_expression`).  Rust's `left.unwrap()` in the infix loop of
`parse_expression` (lines 246 and 250) panics when `left` is `None`; the
outcome type `POut` records that possibility explicitly, and `pbind`
propagates a panic outward exactly as Rust's unwinding would.
-/

/-- Outcome of a parsing function: a value together with the parser state,
or a panic (from `left.unwrap()` on `None`). -/
inductive POut (α : Type) where
  | ok (val : α) (s : PState)
  | panicked (s : PState)
deriving Repr

/-- Sequencing in the fuel/panic channel: fuel exhaustion and panics
propagate, a value is passed on. -/
def pbind {α β : Type} (x : Option (POut α)) (f : α → PState → Option (POut β)) :
    Option (POut β) :=
  match x with
  | Option.none => Option.none
  | Option.some (POut.panicked s) => Option.some (POut.panicked s)
  | Option.some (POut.ok a s) => f a s

mutual

/-- `parse_program` (lines 68-77): while `curr` is not `End`, parse a
statement (dropping it if the sub-parser failed), then advance once. -/
def parse_program : Nat → PState → Option (POut Program)
  | 0, _ => Option.none
  | fuel+1, s =>
    if s.curr = Token.End then Option.some (POut.ok [] s)
    else
      pbind (parse_statement fuel s) (fun st? s1 =>
        pbind (parse_program fuel (next_token s1)) (fun rest s2 =>
          Option.some (POut.ok (st?.toList ++ rest) s2)))

/-- `parse_statement` (lines 79-88): dispatch on `curr`. -/
def parse_statement : Nat → PState → Option (POut (Option Statement))
  | 0, _ => Option.none
  | fuel+1, s =>
    match s.curr with
    | Token.Let => parse_let_statement fuel s
    | Token.Return => parse_return_statement fuel s
    | Token.TypeKw =>
      (match parse_type_statement fuel s with
       | Option.none => Option.none
       | Option.some (st?, s1) => Option.some (POut.ok st? s1))
    | _ => parse_expression_statement fuel s

/-- `parse_let_statement` (lines 105-130).  Note the first arm: when `peek`
is not an identifier the function fails silently (no diagnostic). -/
def parse_let_statement : Nat → PState → Option (POut (Option Statement))
  | 0, _ => Option.none
  | fuel+1, s =>
    match s.peek with
    | Token.Identifier _ =>
      let s1 := next_token s
      (match parse_identifier s1 with
       | Option.none => Option.some (POut.ok Option.none s1)
       | Option.some ident =>
         let r := expect_peek s1 Token.Assign
         if r.1 then
           let s3 := next_token r.2
           pbind (parse_expression fuel Precedence.Lowest s3) (fun e? s4 =>
             match e? with
             | Option.none => Option.some (POut.ok Option.none s4)
             | Option.some e =>
               let s5 := if s4.peek = Token.SemiColon then next_token s4 else s4
               Option.some (POut.ok (Option.some (Statement.Let ident e)) s5))
         else Option.some (POut.ok Option.none r.2))
    | _ => Option.some (POut.ok Option.none s)

/-- `parse_return_statement` (lines 91-103). -/
def parse_return_statement : Nat → PState → Option (POut (Option Statement))
  | 0, _ => Option.none
  | fuel+1, s =>
    let s1 := next_token s
    pbind (parse_expression fuel Precedence.Lowest s1) (fun e? s2 =>
      match e? with
      | Option.none => Option.some (POut.ok Option.none s2)
      | Option.some e =>
        let s3 := if s2.peek = Token.SemiColon then next_token s2 else s2
        Option.some (POut.ok (Option.some (Statement.Return e)) s3))

/-- `parse_expression_statement` (lines 406-415). -/
def parse_expression_statement : Nat → PState → Option (POut (Option Statement))
  | 0, _ => Option.none
  | fuel+1, s =>
    pbind (parse_expression fuel Precedence.Lowest s) (fun e? s1 =>
      match e? with
      | Option.none => Option.some (POut.ok Option.none s1)
      | Option.some e =>
        let s2 := if s1.peek = Token.SemiColon then next_token s1 else s1
        Option.some (POut.ok (Option.some (Statement.Expression e)) s2))

/-- `parse_expression` (lines 179-265): the prefix dispatch computes the
initial `left`, then the infix loop extends it.  The dispatch's result
distinguishes Rust's early `return None` (outer `none`: the loop is skipped)
from a `None` *value* for `left` (the loop still runs — the source of the
`unwrap` panic). -/
def parse_expression : Nat → Precedence → PState → Option (POut (Option Expression))
  | 0, _, _ => Option.none
  | fuel+1, precedence, s =>
    pbind (parse_prefix_dispatch fuel s) (fun left? s1 =>
      match left? with
      | Option.none => Option.some (POut.ok Option.none s1)
      | Option.some left => parse_infix_loop fuel precedence left s1)

/-- The `let mut left = match &self.curr { ... }` dispatch of
`parse_expression` (lines 180-228).  Arms that `return None` in Rust yield
`ok Option.none`; arms that produce a value `left : Option<Expression>`
yield `ok (Option.some left)`. -/
def parse_prefix_dispatch : Nat → PState → Option (POut (Option (Option Expression)))
  | 0, _ => Option.none
  | fuel+1, s =>
    match s.curr with
    | Token.Identifier _ =>
      (match parse_identifier s with
       | Option.some ident =>
         Option.some (POut.ok (Option.some (Option.some (Expression.Identifier ident))) s)
       | Option.none => Option.some (POut.ok (Option.some Option.none) s))
    | Token.String | Token.Int | Token.Float | Token.Char | Token.Bool | Token.List
    | Token.Option | Token.Result | Token.Map | Token.Unit =>
      Option.some (POut.ok (Option.some (Option.some (Expression.Identifier s.curr))) s)
    | Token.IntegerLiteral str =>
      (match parseI64 str with
       | Option.some d =>
         Option.some (POut.ok (Option.some (Option.some
           (Expression.Literal (Literal.Integer d)))) s)
       | Option.none =>
         Option.some (POut.ok Option.none
           { s with errors := s.errors ++
               [ParseError.Log ("Could not parse " ++ str ++ " as integer")] }))
    | Token.FloatLiteral str =>
      (if floatOk str then
         Option.some (POut.ok (Option.some (Option.some
           (Expression.Literal (Literal.Float str)))) s)
       else
         Option.some (POut.ok Option.none
           { s with errors := s.errors ++
               [ParseError.Log ("Could not parse " ++ str ++ " as float")] }))
    | Token.Boolean b =>
      Option.some (POut.ok (Option.some (Option.some
        (Expression.Literal (Literal.Boolean b)))) s)
    | Token.Bang | Token.Minus | Token.Plus =>
      pbind (parse_prefix_expression fuel s) (fun e? s1 =>
        Option.some (POut.ok (Option.some e?) s1))
    | Token.LeftParen =>
      let s1 := next_token s
      pbind (parse_expression fuel Precedence.Lowest s1) (fun e? s2 =>
        let r := expect_peek s2 Token.RightParen
        if r.1 then Option.some (POut.ok (Option.some e?) r.2)
        else Option.some (POut.ok Option.none r.2))
    | Token.If =>
      pbind (parse_if_expression fuel s) (fun e? s1 =>
        Option.some (POut.ok (Option.some e?) s1))
    | Token.Fn =>
      pbind (parse_function_literal fuel s) (fun e? s1 =>
        Option.some (POut.ok (Option.some e?) s1))
    | Token.Some =>
      pbind (parse_some_expression fuel s) (fun e? s1 =>
        Option.some (POut.ok (Option.some e?) s1))
    | Token.None =>
      Option.some (POut.ok (Option.some (Option.some Expression.OptionNone)) s)
    | Token.Ok =>
      pbind (parse_ok_expression fuel s) (fun e? s1 =>
        Option.some (POut.ok (Option.some e?) s1))
    | Token.Error =>
      pbind (parse_error_expression fuel s) (fun e? s1 =>
        Option.some (POut.ok (Option.some e?) s1))
    | _ =>
      Option.some (POut.ok Option.none (no_prefix_parse_fn_error s s.curr))

/-- The infix `while` loop of `parse_expression` (lines 231-262).  The guard
is `peek != ';' && precedence < token_to_precedence(peek)`; only the listed
eleven operator tokens and `(` have dispatch arms — any other `peek`
(including `<=`, `>=`, `%`, `.`, `&`, `^`) hits the default arm, which
returns `left` unchanged.  The two dispatch arms call `left.unwrap()`:
when `left` is `None` this is a panic. -/
def parse_infix_loop : Nat → Precedence → Option Expression → PState →
    Option (POut (Option Expression))
  | 0, _, _, _ => Option.none
  | fuel+1, precedence, left?, s =>
    if s.peek = Token.SemiColon then Option.some (POut.ok left? s)
    else if precLt precedence (token_to_precedence s.peek) then
      match s.peek with
      | Token.Plus | Token.Minus | Token.Product | Token.ForwardSlash | Token.Equal
      | Token.DoesNotEqual | Token.LessThan | Token.GreaterThan | Token.Pipe
      | Token.Cons | Token.Concat =>
        let s1 := next_token s
        (match left? with
         | Option.none => Option.some (POut.panicked s1)
         | Option.some left =>
           pbind (parse_infix_expression fuel left s1) (fun r s2 =>
             parse_infix_loop fuel precedence r s2))
      | Token.LeftParen =>
        let s1 := next_token s
        (match left? with
         | Option.none => Option.some (POut.panicked s1)
         | Option.some left =>
           pbind (parse_call_expression fuel left s1) (fun r s2 =>
             parse_infix_loop fuel precedence r s2))
      | _ => Option.some (POut.ok left? s)
    else Option.some (POut.ok left? s)

/-- `parse_prefix_expression` (lines 417-428). -/
def parse_prefix_expression : Nat → PState → Option (POut (Option Expression))
  | 0, _ => Option.none
  | fuel+1, s =>
    match prefixOfToken s.curr with
    | Option.none => Option.some (POut.ok Option.none s)
    | Option.some p =>
      let s1 := next_token s
      pbind (parse_expression fuel Precedence.PrefixLevel s1) (fun e? s2 =>
        Option.some (POut.ok (e?.map (fun e => Expression.PrefixE p e)) s2))

/-- `parse_infix_expression` (lines 430-456): map `curr` to the operator,
record its precedence, advance, and parse the right-hand side at that
precedence. -/
def parse_infix_expression : Nat → Expression → PState → Option (POut (Option Expression))
  | 0, _, _ => Option.none
  | fuel+1, left, s =>
    match infixOfToken s.curr with
    | Option.none => Option.some (POut.ok Option.none s)
    | Option.some op =>
      let precedence := curr_precedence s
      let s1 := next_token s
      pbind (parse_expression fuel precedence s1) (fun e? s2 =>
        Option.some (POut.ok (e?.map (fun e => Expression.InfixE op left e)) s2))

/-- `parse_call_expression` (lines 365-404). -/
def parse_call_expression : Nat → Expression → PState → Option (POut (Option Expression))
  | 0, _, _ => Option.none
  | fuel+1, function, s =>
    if s.peek = Token.RightParen then
      Option.some (POut.ok (Option.some (Expression.Call function [])) (next_token s))
    else
      pbind (parse_expression fuel Precedence.Lowest (next_token s)) (fun a? s2 =>
        match a? with
        | Option.none => Option.some (POut.ok Option.none s2)
        | Option.some a =>
          pbind (parse_call_args_loop fuel [a] s2) (fun args? s3 =>
            match args? with
            | Option.none => Option.some (POut.ok Option.none s3)
            | Option.some args =>
              let r := expect_peek s3 Token.RightParen
              if r.1 then
                Option.some (POut.ok (Option.some (Expression.Call function args)) r.2)
              else Option.some (POut.ok Option.none r.2)))

/-- The `while peek == ','` argument loop of `parse_call_expression`
(lines 386-394), with the accumulated arguments explicit. -/
def parse_call_args_loop : Nat → List Expression → PState →
    Option (POut (Option (List Expression)))
  | 0, _, _ => Option.none
  | fuel+1, args, s =>
    if s.peek = Token.Comma then
      pbind (parse_expression fuel Precedence.Lowest (next_token (next_token s))) (fun a? s2 =>
        match a? with
        | Option.none => Option.some (POut.ok Option.none s2)
        | Option.some a => parse_call_args_loop fuel (args ++ [a]) s2)
    else Option.some (POut.ok (Option.some args) s)

/-- `parse_if_expression` (lines 458-485).  Faithful to the source: after
`expect_peek('{')` it advances once more *before* `parse_block_statement`
(which itself advances past its entry token). -/
def parse_if_expression : Nat → PState → Option (POut (Option Expression))
  | 0, _ => Option.none
  | fuel+1, s =>
    pbind (parse_expression fuel Precedence.Lowest (next_token s)) (fun c? s2 =>
      match c? with
      | Option.none => Option.some (POut.ok Option.none s2)
      | Option.some condition =>
        let r := expect_peek s2 Token.LeftBrace
        if r.1 then
          pbind (parse_block_statement fuel (next_token r.2)) (fun consequence s5 =>
            if s5.peek = Token.Else then
              let s6 := next_token s5
              let r2 := expect_peek s6 Token.LeftBrace
              if r2.1 then
                pbind (parse_block_statement fuel (next_token r2.2)) (fun alternative s9 =>
                  Option.some (POut.ok (Option.some
                    (Expression.If condition consequence (Option.some alternative))) s9))
              else Option.some (POut.ok Option.none r2.2)
            else
              Option.some (POut.ok (Option.some
                (Expression.If condition consequence Option.none)) s5))
        else Option.some (POut.ok Option.none r.2))

/-- `parse_function_literal` (lines 267-344).  The block-form validation
inspects the *current* `peek` after the whole block (including its closing
brace) has been consumed. -/
def parse_function_literal : Nat → PState → Option (POut (Option Expression))
  | 0, _ => Option.none
  | fuel+1, s =>
    pbind (parse_fn_param_loop fuel [] s) (fun params? s1 =>
      match params? with
      | Option.none => Option.some (POut.ok Option.none s1)
      | Option.some params =>
        let r := expect_peek s1 Token.Arrow
        if r.1 then
          let s3 := next_token r.2
          if s3.curr = Token.LeftBrace then
            pbind (parse_block_statement fuel s3) (fun block s4 =>
              match block.getLast? with
              | Option.some (Statement.Return _) =>
                Option.some (POut.ok (Option.some (Expression.Function params block)) s4)
              | Option.some (Statement.Expression _) =>
                if s4.peek = Token.SemiColon then
                  Option.some (POut.ok Option.none
                    { s4 with errors := s4.errors ++ [ParseError.Log
                        "Function block\x27s last expression must not end with semicolon"] })
                else
                  Option.some (POut.ok (Option.some (Expression.Function params block)) s4)
              | Option.some _ =>
                Option.some (POut.ok Option.none
                  { s4 with errors := s4.errors ++ [ParseError.Log
                      "Function block must end with expression or return statement"] })
              | Option.none =>
                Option.some (POut.ok Option.none
                  { s4 with errors := s4.errors ++ [ParseError.Log "Empty function body"] }))
          else
            pbind (parse_expression fuel Precedence.Lowest s3) (fun e? s4 =>
              match e? with
              | Option.none => Option.some (POut.ok Option.none s4)
              | Option.some e =>
                if s4.peek = Token.SemiColon then
                  Option.some (POut.ok (Option.some
                    (Expression.Function params [Statement.Expression e])) (next_token s4))
                else
                  Option.some (POut.ok Option.none
                    { s4 with errors := s4.errors ++ [ParseError.Log
                        "Single-line function body must end with semicolon"] }))
        else Option.some (POut.ok Option.none r.2))

/-- The `while peek != '->'` parameter loop of `parse_function_literal`
(lines 269-290), with the accumulated parameters explicit. -/
def parse_fn_param_loop : Nat → List Token → PState → Option (POut (Option (List Token)))
  | 0, _, _ => Option.none
  | fuel+1, params, s =>
    if s.peek = Token.Arrow then Option.some (POut.ok (Option.some params) s)
    else
      let s1 := next_token s
      match s1.curr with
      | Token.Identifier name =>
        let s2 := if s1.peek = Token.Comma then next_token s1 else s1
        parse_fn_param_loop fuel (params ++ [Token.Identifier name]) s2
      | Token.Unit =>
        let s2 := if s1.peek = Token.Comma then next_token s1 else s1
        parse_fn_param_loop fuel (params ++ [Token.Unit]) s2
      | _ =>
        Option.some (POut.ok Option.none
          { s1 with errors := s1.errors ++ [ParseError.Log
              ("expected identifier in function parameters, got " ++ tokenDebug s1.curr)] })

/-- `parse_block_statement` (lines 487-503): advance past the entry token,
then run the statement loop. -/
def parse_block_statement : Nat → PState → Option (POut Program)
  | 0, _ => Option.none
  | fuel+1, s => parse_block_loop fuel [] (next_token s)

/-- The `while curr != '}' && curr != End` loop of `parse_block_statement`,
with the accumulated statements explicit; on exit the closing brace, if
present, is consumed. -/
def parse_block_loop : Nat → List Statement → PState → Option (POut Program)
  | 0, _, _ => Option.none
  | fuel+1, statements, s =>
    if s.curr = Token.RightBrace ∨ s.curr = Token.End then
      if s.curr = Token.RightBrace then Option.some (POut.ok statements (next_token s))
      else Option.some (POut.ok statements s)
    else
      pbind (parse_statement fuel s) (fun st? s1 =>
        parse_block_loop fuel (statements ++ st?.toList) (next_token s1))

/-- `parse_some_expression` (lines 783-787): consume `Some`, parse the
operand at `Lowest` precedence. -/
def parse_some_expression : Nat → PState → Option (POut (Option Expression))
  | 0, _ => Option.none
  | fuel+1, s =>
    pbind (parse_expression fuel Precedence.Lowest (next_token s)) (fun e? s2 =>
      match e? with
      | Option.none => Option.some (POut.ok Option.none s2)
      | Option.some e => Option.some (POut.ok (Option.some (Expression.OptionSome e)) s2))

/-- `parse_ok_expression` (lines 789-793). -/
def parse_ok_expression : Nat → PState → Option (POut (Option Expression))
  | 0, _ => Option.none
  | fuel+1, s =>
    pbind (parse_expression fuel Precedence.Lowest (next_token s)) (fun e? s2 =>
      match e? with
      | Option.none => Option.some (POut.ok Option.none s2)
      | Option.some e => Option.some (POut.ok (Option.some (Expression.ResultOk e)) s2))

/-- `parse_error_expression` (lines 795-799). -/
def parse_error_expression : Nat → PState → Option (POut (Option Expression))
  | 0, _ => Option.none
  | fuel+1, s =>
    pbind (parse_expression fuel Precedence.Lowest (next_token s)) (fun e? s2 =>
      match e? with
      | Option.none => Option.some (POut.ok Option.none s2)
      | Option.some e => Option.some (POut.ok (Option.some (Expression.ResultErr e)) s2))

end

/-!
Progress invariants.  `mu` measures how much lexer input is still visible to
the parser: every `next_token` weakly decreases it, and strictly decreases it
unless the machine is already in the absorbing all-`End` configuration.
`WfS` captures the spec's sentinel invariant ("after the underlying stream is
exhausted it holds the end-of-stream sentinel indefinitely") for states
reachable from a lexer stream that does not contain the sentinel.  `Post`
relates a parsing function's entry and exit states.
-/

/-- Remaining-input measure: each buffered non-`End` lookahead token counts
(peek twice, curr once) on top of the unread stream. -/
def mu (s : PState) : Nat :=
  3 * s.rem.length + (if s.peek = Token.End then 0 else 2) +
    (if s.curr = Token.End then 0 else 1)

/-- Well-formed parser state: the unread stream never contains the sentinel,
and the sentinel is absorbing through the lookahead window. -/
def WfS (s : PState) : Prop :=
  Token.End ∉ s.rem ∧ (s.peek = Token.End → s.rem = []) ∧
    (s.curr = Token.End → s.peek = Token.End)

/-- Entry/exit relation of every parsing function: the exit state is
well-formed, the measure has not grown, and `steps + |rem|` has not shrunk
(each advance increments `steps` and removes at most one unread token). -/
def Post (s t : PState) : Prop :=
  WfS t ∧ mu t ≤ mu s ∧ s.steps + s.rem.length ≤ t.steps + t.rem.length

/-- `Post` lifted to a parsing outcome: a panic discharges every obligation
(Rust unwinding aborts the parse), a normal return obeys `Post`. -/
@[reducible] def PostOut {α : Type} (s : PState) : POut α → Prop
  | POut.ok _ t => Post s t
  | POut.panicked _ => True

/-- Fuel adequacy, stated for every function of the expression/statement
cluster at once: with fuel exceeding `10 * mu s + rank` the function does not
exhaust its fuel, and a normal return satisfies `Post`.  The ranks order the
functions along the call chains that do not advance the cursor.
`parse_program` additionally leaves `curr = End` on normal return. -/
structure AdeqPack (n : Nat) : Prop where
  expr : ∀ (precedence : Precedence) (s : PState), WfS s → 10 * mu s + 4 < n →
    ∃ out, parse_expression n precedence s = Option.some out ∧ PostOut s out
  dispatch : ∀ s : PState, WfS s → 10 * mu s + 3 < n →
    ∃ out, parse_prefix_dispatch n s = Option.some out ∧ PostOut s out
  iloop : ∀ (precedence : Precedence) (left? : Option Expression) (s : PState),
    WfS s → 10 * mu s + 1 < n →
    ∃ out, parse_infix_loop n precedence left? s = Option.some out ∧ PostOut s out
  prefixe : ∀ s : PState, WfS s → 10 * mu s + 1 < n →
    ∃ out, parse_prefix_expression n s = Option.some out ∧ PostOut s out
  infixe : ∀ (left : Expression) (s : PState), WfS s → 10 * mu s + 1 < n →
    ∃ out, parse_infix_expression n left s = Option.some out ∧ PostOut s out
  call : ∀ (function : Expression) (s : PState), WfS s → 10 * mu s + 6 < n →
    ∃ out, parse_call_expression n function s = Option.some out ∧ PostOut s out
  args : ∀ (acc : List Expression) (s : PState), WfS s → 10 * mu s + 5 < n →
    ∃ out, parse_call_args_loop n acc s = Option.some out ∧ PostOut s out
  ifex : ∀ s : PState, WfS s → s.curr ≠ Token.End → 10 * mu s + 2 < n →
    ∃ out, parse_if_expression n s = Option.some out ∧ PostOut s out
  fnlit : ∀ s : PState, WfS s → 10 * mu s + 2 < n →
    ∃ out, parse_function_literal n s = Option.some out ∧ PostOut s out
  param : ∀ (acc : List Token) (s : PState), WfS s → 10 * mu s + 1 < n →
    ∃ out, parse_fn_param_loop n acc s = Option.some out ∧ PostOut s out
  blockst : ∀ s : PState, WfS s → 10 * mu s + 8 < n →
    ∃ out, parse_block_statement n s = Option.some out ∧ PostOut s out
  blockloop : ∀ (acc : List Statement) (s : PState), WfS s → 10 * mu s + 7 < n →
    ∃ out, parse_block_loop n acc s = Option.some out ∧ PostOut s out
  someex : ∀ s : PState, WfS s → s.curr ≠ Token.End → 10 * mu s + 2 < n →
    ∃ out, parse_some_expression n s = Option.some out ∧ PostOut s out
  okex : ∀ s : PState, WfS s → s.curr ≠ Token.End → 10 * mu s + 2 < n →
    ∃ out, parse_ok_expression n s = Option.some out ∧ PostOut s out
  errex : ∀ s : PState, WfS s → s.curr ≠ Token.End → 10 * mu s + 2 < n →
    ∃ out, parse_error_expression n s = Option.some out ∧ PostOut s out
  letst : ∀ s : PState, WfS s → 10 * mu s + 1 < n →
    ∃ out, parse_let_statement n s = Option.some out ∧ PostOut s out
  retst : ∀ s : PState, WfS s → s.curr ≠ Token.End → 10 * mu s + 1 < n →
    ∃ out, parse_return_statement n s = Option.some out ∧ PostOut s out
  exprst : ∀ s : PState, WfS s → 10 * mu s + 5 < n →
    ∃ out, parse_expression_statement n s = Option.some out ∧ PostOut s out
  stmt : ∀ s : PState, WfS s → s.curr ≠ Token.End → 10 * mu s + 6 < n →
    ∃ out, parse_statement n s = Option.some out ∧ PostOut s out
  prog : ∀ s : PState, WfS s → 10 * mu s + 7 < n →
    ∃ out, parse_program n s = Option.some out ∧ PostOut s out ∧
      (∀ p t, out = POut.ok p t → t.curr = Token.End)

theorem post_refl {s : PState} (h : WfS s) : Post s s :=
  ⟨h, Nat.le_refl _, Nat.le_refl _⟩

theorem post_trans {s t u : PState} (h1 : Post s t) (h2 : Post t u) : Post s u :=
  ⟨h2.1, Nat.le_trans h2.2.1 h1.2.1, Nat.le_trans h1.2.2 h2.2.2⟩

/-- Appending diagnostics leaves cursor, stream and step count untouched. -/
theorem post_errors {s : PState} (h : WfS s) (e : List ParseError) :
    Post s { s with errors := e } :=
  ⟨h, Nat.le_refl _, Nat.le_refl _⟩

theorem next_token_curr (s : PState) : (next_token s).curr = s.peek := by
  unfold next_token; cases s.rem <;> rfl

theorem wfS_next {s : PState} (h : WfS s) : WfS (next_token s) := by
  obtain ⟨h1, h2, h3⟩ := h
  unfold next_token
  cases hr : s.rem with
  | nil =>
    exact ⟨List.not_mem_nil _, fun _ => rfl, fun _ => rfl⟩
  | cons t ts =>
    refine ⟨fun hm => h1 (by rw [hr]; exact List.mem_cons_of_mem _ hm), ?_, ?_⟩
    · intro hpeek
      exact absurd (hpeek ▸ (by rw [hr]; exact List.mem_cons_self t ts : t ∈ s.rem)) h1
    · intro hcurr
      have : s.rem = [] := h2 hcurr
      rw [hr] at this; cases this

theorem mu_next_le (s : PState) : mu (next_token s) ≤ mu s := by
  unfold mu next_token
  cases s.rem <;> (try simp_all) <;> (repeat' split) <;> (try simp_all) <;> omega

theorem mu_next_lt_of_peek {s : PState} (h : s.peek ≠ Token.End) :
    mu (next_token s) < mu s := by
  unfold mu next_token
  cases s.rem <;> (try simp_all) <;> (repeat' split) <;> (try simp_all) <;> omega

theorem mu_next_lt_of_curr {s : PState} (h : s.curr ≠ Token.End) :
    mu (next_token s) < mu s := by
  unfold mu next_token
  cases s.rem <;> (try simp_all) <;> (repeat' split) <;> (try simp_all) <;> omega

theorem mu_pos_of_curr {s : PState} (h : s.curr ≠ Token.End) : 0 < mu s := by
  unfold mu; rw [if_neg h]; omega

theorem mu_zero_of_end {s : PState} (hW : WfS s) (h : s.curr = Token.End) : mu s = 0 := by
  have hp : s.peek = Token.End := hW.2.2 h
  have hr : s.rem = [] := hW.2.1 hp
  unfold mu; rw [if_pos hp, if_pos h, hr]; rfl

theorem post_next {s : PState} (h : WfS s) : Post s (next_token s) := by
  refine ⟨wfS_next h, mu_next_le s, ?_⟩
  unfold next_token
  cases s.rem <;> simp <;> omega

/-!
Fuel adequacy for the type-declaration cluster: with fuel exceeding an affine
function of the measure, each function returns (no fuel exhaustion) and its
exit state satisfies `Post`.
-/

theorem ta_adeq : ∀ fuel, ∀ s : PState, WfS s → 10 * mu s < fuel →
    ∃ r t, parse_type_ann fuel s = Option.some (r, t) ∧ Post s t := by
  intro fuel
  induction fuel with
  | zero => intro s hW hb; omega
  | succ n ih =>
    intro s hW hb
    simp only [parse_type_ann]
    split
    all_goals try exact ⟨_, _, rfl, post_refl hW⟩
    all_goals try exact ⟨_, _, rfl, post_errors hW _⟩
    all_goals try
      (split <;> first
        | exact ⟨_, _, rfl, post_errors hW _⟩
        | exact ⟨_, _, rfl, post_refl hW⟩)
    all_goals
      (rename_i heq
       obtain ⟨r, t, hrec, hpost⟩ := ih (next_token s) (wfS_next hW)
         (by have := mu_next_lt_of_curr (s := s) (by simp [heq]); omega)
       rw [hrec]
       rcases r with _ | p <;> exact ⟨_, _, rfl, post_trans (post_next hW) hpost⟩)

theorem rec_ta_adeq : ∀ fuel, ∀ s : PState, WfS s → 10 * mu s < fuel →
    ∃ r t, parse_record_type_ann fuel s = Option.some (r, t) ∧ Post s t := by
  intro fuel
  induction fuel with
  | zero => intro s hW hb; omega
  | succ n ih =>
    intro s hW hb
    simp only [parse_record_type_ann]
    split
    all_goals try exact ⟨_, _, rfl, post_refl hW⟩
    all_goals try
      (split <;> first
        | exact ⟨_, _, rfl, post_errors hW _⟩
        | exact ⟨_, _, rfl, post_refl hW⟩)
    all_goals
      (rename_i heq
       obtain ⟨r, t, hrec, hpost⟩ := ih (next_token s) (wfS_next hW)
         (by have := mu_next_lt_of_curr (s := s) (by simp [heq]); omega)
       rw [hrec]
       rcases r with _ | p <;> exact ⟨_, _, rfl, post_trans (post_next hW) hpost⟩)

/-- `expect_peek` outcome: either success (advance) or failure (diagnostic
only); in both cases `Post` holds. -/
theorem expect_peek_post {s : PState} (h : WfS s) (tok : Token) :
    Post s (expect_peek s tok).2 := by
  unfold expect_peek
  split
  · exact post_next h
  · exact post_errors h _

theorem expect_peek_true {s : PState} {tok : Token} (h : (expect_peek s tok).1 = true) :
    (expect_peek s tok).2 = next_token s ∧ s.peek = tok := by
  unfold expect_peek at h ⊢
  split at h
  · exact ⟨by rw [if_pos (by assumption)], by assumption⟩
  · cases h

theorem union_loop_adeq : ∀ fuel, ∀ (variants : List (Token × Option Alias)) (s : PState),
    WfS s → 10 * mu s + 3 < fuel →
    ∃ r t, parse_union_loop fuel variants s = Option.some (r, t) ∧ Post s t := by
  intro fuel
  induction fuel with
  | zero => intro variants s hW hb; omega
  | succ n ih =>
    intro variants s hW hb
    have hW1 : WfS (next_token s) := wfS_next hW
    have hP1 : Post s (next_token s) := post_next hW
    simp only [parse_union_loop]
    split
    · rename_i heq
      -- variant-name arm: the new curr is an identifier, so the old peek was
      -- not End and the advance was strict
      have hstrict : mu (next_token s) < mu s := by
        apply mu_next_lt_of_peek
        intro hpk
        rw [next_token_curr, hpk] at heq
        cases heq
      split
      · -- variant with an `of` annotation
        have hWu : WfS (next_token (next_token (next_token s))) :=
          wfS_next (wfS_next hW1)
        have hPu : Post s (next_token (next_token (next_token s))) :=
          post_trans hP1 (post_trans (post_next hW1) (post_next (wfS_next hW1)))
        have h2 := mu_next_le (next_token s)
        have h3 := mu_next_le (next_token (next_token s))
        obtain ⟨r0, t0, hrec, hpost⟩ := ta_adeq n _ hWu (by omega)
        have hPt0 : Post s t0 := post_trans hPu hpost
        have hmt0 : mu t0 ≤ mu (next_token s) := by
          have := hpost.2.1; omega
        split
        · rename_i heq2
          rw [hrec] at heq2; exact Option.noConfusion heq2
        · rename_i s3 heq2
          rw [hrec] at heq2
          injection heq2 with h
          injection h with h1 h2x
          subst h2x
          exact ⟨_, _, rfl, hPt0⟩
        · rename_i ty s3 heq2
          rw [hrec] at heq2
          injection heq2 with h
          injection h with h1 h2x
          subst h2x
          split
          · obtain ⟨r2, t2, hrec2, hpost2⟩ := ih _ (next_token t0) (wfS_next hPt0.1)
              (by have h4 := mu_next_le t0; omega)
            rw [hrec2]
            exact ⟨_, _, rfl, post_trans (post_trans hPt0 (post_next hPt0.1)) hpost2⟩
          · split <;>
              exact ⟨_, _, rfl, post_trans hPt0 (expect_peek_post hPt0.1 _)⟩
      · -- bare variant
        split
        · obtain ⟨r2, t2, hrec2, hpost2⟩ := ih _ (next_token (next_token s)) (wfS_next hW1)
            (by have h2 := mu_next_le (next_token s); omega)
          rw [hrec2]
          exact ⟨_, _, rfl, post_trans (post_trans hP1 (post_next hW1)) hpost2⟩
        · split <;>
            exact ⟨_, _, rfl, post_trans hP1 (expect_peek_post hW1 _)⟩
    · exact ⟨_, _, rfl, post_trans hP1 (post_errors hW1 _)⟩

theorem record_loop_adeq : ∀ fuel, ∀ (fields : List (Token × Alias)) (s : PState),
    WfS s → 10 * mu s + 3 < fuel →
    ∃ r t, parse_record_loop fuel fields s = Option.some (r, t) ∧ Post s t := by
  intro fuel
  induction fuel with
  | zero => intro fields s hW hb; omega
  | succ n ih =>
    intro fields s hW hb
    simp only [parse_record_loop]
    split
    · -- peek is `}`: consume it and demand `;`
      split
      · split <;>
          exact ⟨_, _, rfl,
            post_trans (expect_peek_post hW _) (expect_peek_post (expect_peek_post hW _).1 _)⟩
      · exact ⟨_, _, rfl, expect_peek_post hW _⟩
    · have hW1 : WfS (next_token s) := wfS_next hW
      have hP1 : Post s (next_token s) := post_next hW
      split
      · rename_i heq
        have hstrict : mu (next_token s) < mu s := by
          apply mu_next_lt_of_peek
          intro hpk
          rw [next_token_curr, hpk] at heq
          cases heq
        split
        · -- the `:` was found; parse the field type
          have hPc : Post s (expect_peek (next_token s) Token.Colon).2 :=
            post_trans hP1 (expect_peek_post hW1 _)
          have hPu : Post s (next_token (expect_peek (next_token s) Token.Colon).2) :=
            post_trans hPc (post_next hPc.1)
          have hmc := (expect_peek_post hW1 Token.Colon).2.1
          have hmu := mu_next_le (expect_peek (next_token s) Token.Colon).2
          obtain ⟨r0, t0, hrec, hpost⟩ := rec_ta_adeq n _ hPu.1 (by omega)
          have hPt0 : Post s t0 := post_trans hPu hpost
          have hmt0 : mu t0 ≤ mu (next_token s) := by
            have := hpost.2.1; omega
          split
          · rename_i heq2
            rw [hrec] at heq2; exact Option.noConfusion heq2
          · rename_i s4 heq2
            rw [hrec] at heq2
            injection heq2 with h
            injection h with h1 h2x
            subst h2x
            exact ⟨_, _, rfl, hPt0⟩
          · rename_i ty s4 heq2
            rw [hrec] at heq2
            injection heq2 with h
            injection h with h1 h2x
            subst h2x
            split
            · obtain ⟨r2, t2, hrec2, hpost2⟩ := ih _ (next_token t0) (wfS_next hPt0.1)
                (by have h4 := mu_next_le t0; omega)
              rw [hrec2]
              exact ⟨_, _, rfl, post_trans (post_trans hPt0 (post_next hPt0.1)) hpost2⟩
            · obtain ⟨r2, t2, hrec2, hpost2⟩ := ih _ t0 hPt0.1 (by omega)
              rw [hrec2]
              exact ⟨_, _, rfl, post_trans hPt0 hpost2⟩
        · exact ⟨_, _, rfl, post_trans hP1 (expect_peek_post hW1 _)⟩
      · exact ⟨_, _, rfl, post_trans hP1 (post_errors hW1 _)⟩

theorem alias_adeq (fuel : Nat) (s : PState) (hW : WfS s) (hb : 10 * mu s + 1 < fuel) :
    ∃ r t, parse_type_alias fuel s = Option.some (r, t) ∧ Post s t := by
  obtain ⟨r0, t0, hrec, hpost⟩ := ta_adeq fuel s hW (by omega)
  unfold parse_type_alias
  dsimp only
  split
  · rename_i heq
    rw [hrec] at heq; exact Option.noConfusion heq
  · rename_i s1 heq
    rw [hrec] at heq
    injection heq with h
    injection h with h1 h2x
    subst h2x
    exact ⟨_, _, rfl, hpost⟩
  · rename_i t1 s1 heq
    rw [hrec] at heq
    injection heq with h
    injection h with h1 h2x
    subst h2x
    split <;> exact ⟨_, _, rfl, post_trans hpost (expect_peek_post hpost.1 _)⟩

theorem type_statement_adeq (fuel : Nat) (s : PState) (hW : WfS s)
    (hcurr : s.curr ≠ Token.End) (hb : 10 * mu s + 5 < fuel) :
    ∃ r t, parse_type_statement fuel s = Option.some (r, t) ∧ Post s t := by
  have hW1 : WfS (next_token s) := wfS_next hW
  have hP1 : Post s (next_token s) := post_next hW
  have hstrict : mu (next_token s) < mu s := mu_next_lt_of_curr hcurr
  unfold parse_type_statement
  dsimp only
  split
  · exact ⟨_, _, rfl, hP1⟩
  · split
    · -- `=` found
      have hPa : Post s (expect_peek (next_token s) Token.Assign).2 :=
        post_trans hP1 (expect_peek_post hW1 _)
      have hma := (expect_peek_post hW1 Token.Assign).2.1
      split
      · -- union shape, signalled by `|`
        have hPu : Post s (next_token (expect_peek (next_token s) Token.Assign).2) :=
          post_trans hPa (post_next hPa.1)
        have hmu := mu_next_le (expect_peek (next_token s) Token.Assign).2
        obtain ⟨r0, t0, hrec, hpost⟩ := union_loop_adeq fuel [] _ hPu.1 (by omega)
        simp only [parse_union_type]
        split
        · rename_i heq2
          rw [hrec] at heq2; exact Option.noConfusion heq2
        · rename_i s4 heq2
          rw [hrec] at heq2
          injection heq2 with h
          injection h with h1 h2x
          subst h2x
          exact ⟨_, _, rfl, post_trans hPu hpost⟩
        · rename_i td s4 heq2
          rw [hrec] at heq2
          injection heq2 with h
          injection h with h1 h2x
          subst h2x
          exact ⟨_, _, rfl, post_trans hPu hpost⟩
      · -- record or alias shape
        have hPs3 : Post s (next_token (expect_peek (next_token s) Token.Assign).2) :=
          post_trans hPa (post_next hPa.1)
        have hms3 := mu_next_le (expect_peek (next_token s) Token.Assign).2
        split
        · -- record
          obtain ⟨r0, t0, hrec, hpost⟩ := record_loop_adeq fuel [] _ hPs3.1 (by omega)
          simp only [parse_record_type]
          split
          · rename_i heq2
            rw [hrec] at heq2; exact Option.noConfusion heq2
          · rename_i s4 heq2
            rw [hrec] at heq2
            injection heq2 with h
            injection h with h1 h2x
            subst h2x
            exact ⟨_, _, rfl, post_trans hPs3 hpost⟩
          · rename_i td s4 heq2
            rw [hrec] at heq2
            injection heq2 with h
            injection h with h1 h2x
            subst h2x
            exact ⟨_, _, rfl, post_trans hPs3 hpost⟩
        · -- alias
          obtain ⟨r0, t0, hrec, hpost⟩ := alias_adeq fuel _ hPs3.1 (by omega)
          split
          · rename_i heq2
            rw [hrec] at heq2; exact Option.noConfusion heq2
          · rename_i s4 heq2
            rw [hrec] at heq2
            injection heq2 with h
            injection h with h1 h2x
            subst h2x
            exact ⟨_, _, rfl, post_trans hPs3 hpost⟩
          · rename_i td s4 heq2
            rw [hrec] at heq2
            injection heq2 with h
            injection h with h1 h2x
            subst h2x
            exact ⟨_, _, rfl, post_trans hPs3 hpost⟩
    · exact ⟨_, _, rfl, post_trans hP1 (expect_peek_post hW1 _)⟩

theorem precLt_lowest_false (p : Precedence) : precLt p Precedence.Lowest = false := by
  cases p <;> rfl

/-- The infix-loop guard `precedence < token_to_precedence peek` can only
hold when `peek` is not the sentinel (whose precedence is `Lowest`). -/
theorem guard_peek_ne_end {p : Precedence} {s : PState}
    (h : precLt p (token_to_precedence s.peek) = true) : s.peek ≠ Token.End := by
  intro hE
  rw [hE] at h
  have h2 : precLt p Precedence.Lowest = true := h
  rw [precLt_lowest_false] at h2
  cases h2

theorem prefixOfToken_ne_end {t : Token} {p : PrefixOp}
    (h : prefixOfToken t = Option.some p) : t ≠ Token.End := by
  intro hE
  rw [hE] at h
  simp [prefixOfToken] at h

theorem infixOfToken_ne_end {t : Token} {op : InfixOp}
    (h : infixOfToken t = Option.some op) : t ≠ Token.End := by
  intro hE
  rw [hE] at h
  simp [infixOfToken] at h

theorem step_iloop {n : Nat} (ih : AdeqPack n) :
    ∀ (precedence : Precedence) (left? : Option Expression) (s : PState),
      WfS s → 10 * mu s + 1 < n + 1 →
      ∃ out, parse_infix_loop (n + 1) precedence left? s = Option.some out ∧ PostOut s out := by
  intro precedence left? s hW hb
  rcases left? with _ | left <;>
    (simp only [parse_infix_loop]
     split
     · exact ⟨_, rfl, post_refl hW⟩
     split
     · rename_i hsemi hguard
       have hpk : s.peek ≠ Token.End := guard_peek_ne_end hguard
       have hstrict : mu (next_token s) < mu s := mu_next_lt_of_peek hpk
       have hWn : WfS (next_token s) := wfS_next hW
       split
       all_goals try exact ⟨_, rfl, post_refl hW⟩
       all_goals try exact ⟨_, rfl, trivial⟩
       all_goals
         (first
          | (obtain ⟨out1, hrec, hpost⟩ := ih.infixe left (next_token s) hWn (by omega)
             rw [hrec])
          | (obtain ⟨out1, hrec, hpost⟩ := ih.call left (next_token s) hWn (by omega)
             rw [hrec])
          cases out1 with
          | panicked t1 => exact ⟨_, rfl, trivial⟩
          | ok r s2 =>
            simp only [pbind]
            obtain ⟨out2, hrec2, hpost2⟩ := ih.iloop precedence r s2 hpost.1
              (by have := hpost.2.1; omega)
            rw [hrec2]
            cases out2 with
            | panicked t2 => exact ⟨_, rfl, trivial⟩
            | ok r2 t2 =>
              exact ⟨_, rfl, post_trans (post_next hW) (post_trans hpost hpost2)⟩)
     · exact ⟨_, rfl, post_refl hW⟩)

theorem step_prefixe {n : Nat} (ih : AdeqPack n) :
    ∀ s : PState, WfS s → 10 * mu s + 1 < n + 1 →
      ∃ out, parse_prefix_expression (n + 1) s = Option.some out ∧ PostOut s out := by
  intro s hW hb
  simp only [parse_prefix_expression]
  split
  · exact ⟨_, rfl, post_refl hW⟩
  · rename_i p heq
    have hstrict : mu (next_token s) < mu s :=
      mu_next_lt_of_curr (prefixOfToken_ne_end heq)
    obtain ⟨out1, hrec, hpost⟩ := ih.expr Precedence.PrefixLevel (next_token s)
      (wfS_next hW) (by omega)
    rw [hrec]
    cases out1 with
    | panicked t1 => exact ⟨_, rfl, trivial⟩
    | ok e? s2 => exact ⟨_, rfl, post_trans (post_next hW) hpost⟩

theorem step_infixe {n : Nat} (ih : AdeqPack n) :
    ∀ (left : Expression) (s : PState), WfS s → 10 * mu s + 1 < n + 1 →
      ∃ out, parse_infix_expression (n + 1) left s = Option.some out ∧ PostOut s out := by
  intro left s hW hb
  simp only [parse_infix_expression]
  split
  · exact ⟨_, rfl, post_refl hW⟩
  · rename_i op heq
    have hstrict : mu (next_token s) < mu s :=
      mu_next_lt_of_curr (infixOfToken_ne_end heq)
    obtain ⟨out1, hrec, hpost⟩ := ih.expr (curr_precedence s) (next_token s)
      (wfS_next hW) (by omega)
    rw [hrec]
    cases out1 with
    | panicked t1 => exact ⟨_, rfl, trivial⟩
    | ok e? s2 => exact ⟨_, rfl, post_trans (post_next hW) hpost⟩

theorem step_dispatch {n : Nat} (ih : AdeqPack n) :
    ∀ s : PState, WfS s → 10 * mu s + 3 < n + 1 →
      ∃ out, parse_prefix_dispatch (n + 1) s = Option.some out ∧ PostOut s out := by
  intro s hW hb
  simp only [parse_prefix_dispatch]
  split
  all_goals try exact ⟨_, rfl, post_refl hW⟩
  all_goals try (split <;> exact ⟨_, rfl, post_refl hW⟩)
  -- unary-operator arms
  all_goals try
    (obtain ⟨out1, hrec, hpost⟩ := ih.prefixe s hW (by omega)
     rw [hrec]
     cases out1 with
     | panicked t1 => exact ⟨_, rfl, trivial⟩
     | ok e? s1 => exact ⟨_, rfl, hpost⟩)
  -- function literal
  all_goals try
    (obtain ⟨out1, hrec, hpost⟩ := ih.fnlit s hW (by omega)
     rw [hrec]
     cases out1 with
     | panicked t1 => exact ⟨_, rfl, trivial⟩
     | ok e? s1 => exact ⟨_, rfl, hpost⟩)
  -- grouping parenthesis
  all_goals try
    (rename_i heq
     have hstrict : mu (next_token s) < mu s := mu_next_lt_of_curr (by simp [heq])
     obtain ⟨out1, hrec, hpost⟩ := ih.expr Precedence.Lowest (next_token s)
       (wfS_next hW) (by omega)
     rw [hrec]
     cases out1 with
     | panicked t1 => exact ⟨_, rfl, trivial⟩
     | ok e? s2 =>
       simp only [pbind]
       have hP2 : Post s s2 := post_trans (post_next hW) hpost
       split <;> exact ⟨_, rfl, post_trans hP2 (expect_peek_post hP2.1 _)⟩)
  -- if-expression
  all_goals try
    (rename_i heq
     obtain ⟨out1, hrec, hpost⟩ := ih.ifex s hW (by simp [heq]) (by omega)
     rw [hrec]
     cases out1 with
     | panicked t1 => exact ⟨_, rfl, trivial⟩
     | ok e? s1 => exact ⟨_, rfl, hpost⟩)
  -- Some
  all_goals try
    (rename_i heq
     obtain ⟨out1, hrec, hpost⟩ := ih.someex s hW (by simp [heq]) (by omega)
     rw [hrec]
     cases out1 with
     | panicked t1 => exact ⟨_, rfl, trivial⟩
     | ok e? s1 => exact ⟨_, rfl, hpost⟩)
  -- Ok
  all_goals try
    (rename_i heq
     obtain ⟨out1, hrec, hpost⟩ := ih.okex s hW (by simp [heq]) (by omega)
     rw [hrec]
     cases out1 with
     | panicked t1 => exact ⟨_, rfl, trivial⟩
     | ok e? s1 => exact ⟨_, rfl, hpost⟩)
  -- Error
  all_goals
    (rename_i heq
     obtain ⟨out1, hrec, hpost⟩ := ih.errex s hW (by simp [heq]) (by omega)
     rw [hrec]
     cases out1 with
     | panicked t1 => exact ⟨_, rfl, trivial⟩
     | ok e? s1 => exact ⟨_, rfl, hpost⟩)

theorem step_expr {n : Nat} (ih : AdeqPack n) :
    ∀ (precedence : Precedence) (s : PState), WfS s → 10 * mu s + 4 < n + 1 →
      ∃ out, parse_expression (n + 1) precedence s = Option.some out ∧ PostOut s out := by
  intro precedence s hW hb
  simp only [parse_expression]
  obtain ⟨out1, hrec, hpost⟩ := ih.dispatch s hW (by omega)
  rw [hrec]
  cases out1 with
  | panicked t1 => exact ⟨_, rfl, trivial⟩
  | ok left? s1 =>
    simp only [pbind]
    split
    · exact ⟨_, rfl, hpost⟩
    · rename_i left
      obtain ⟨out2, hrec2, hpost2⟩ := ih.iloop precedence left s1 hpost.1
        (by have := hpost.2.1; omega)
      rw [hrec2]
      cases out2 with
      | panicked t2 => exact ⟨_, rfl, trivial⟩
      | ok r t2 => exact ⟨_, rfl, post_trans hpost hpost2⟩

theorem step_someex {n : Nat} (ih : AdeqPack n) :
    ∀ s : PState, WfS s → s.curr ≠ Token.End → 10 * mu s + 2 < n + 1 →
      ∃ out, parse_some_expression (n + 1) s = Option.some out ∧ PostOut s out := by
  intro s hW hcurr hb
  simp only [parse_some_expression]
  have hstrict := mu_next_lt_of_curr hcurr
  obtain ⟨out1, hrec, hpost⟩ := ih.expr Precedence.Lowest (next_token s) (wfS_next hW)
    (by omega)
  rw [hrec]
  cases out1 with
  | panicked t1 => exact ⟨_, rfl, trivial⟩
  | ok e? s2 =>
    simp only [pbind]
    split <;> exact ⟨_, rfl, post_trans (post_next hW) hpost⟩

theorem step_okex {n : Nat} (ih : AdeqPack n) :
    ∀ s : PState, WfS s → s.curr ≠ Token.End → 10 * mu s + 2 < n + 1 →
      ∃ out, parse_ok_expression (n + 1) s = Option.some out ∧ PostOut s out := by
  intro s hW hcurr hb
  simp only [parse_ok_expression]
  have hstrict := mu_next_lt_of_curr hcurr
  obtain ⟨out1, hrec, hpost⟩ := ih.expr Precedence.Lowest (next_token s) (wfS_next hW)
    (by omega)
  rw [hrec]
  cases out1 with
  | panicked t1 => exact ⟨_, rfl, trivial⟩
  | ok e? s2 =>
    simp only [pbind]
    split <;> exact ⟨_, rfl, post_trans (post_next hW) hpost⟩

theorem step_errex {n : Nat} (ih : AdeqPack n) :
    ∀ s : PState, WfS s → s.curr ≠ Token.End → 10 * mu s + 2 < n + 1 →
      ∃ out, parse_error_expression (n + 1) s = Option.some out ∧ PostOut s out := by
  intro s hW hcurr hb
  simp only [parse_error_expression]
  have hstrict := mu_next_lt_of_curr hcurr
  obtain ⟨out1, hrec, hpost⟩ := ih.expr Precedence.Lowest (next_token s) (wfS_next hW)
    (by omega)
  rw [hrec]
  cases out1 with
  | panicked t1 => exact ⟨_, rfl, trivial⟩
  | ok e? s2 =>
    simp only [pbind]
    split <;> exact ⟨_, rfl, post_trans (post_next hW) hpost⟩

theorem step_exprst {n : Nat} (ih : AdeqPack n) :
    ∀ s : PState, WfS s → 10 * mu s + 5 < n + 1 →
      ∃ out, parse_expression_statement (n + 1) s = Option.some out ∧ PostOut s out := by
  intro s hW hb
  simp only [parse_expression_statement]
  obtain ⟨out1, hrec, hpost⟩ := ih.expr Precedence.Lowest s hW (by omega)
  rw [hrec]
  cases out1 with
  | panicked t1 => exact ⟨_, rfl, trivial⟩
  | ok e? s1 =>
    simp only [pbind]
    split
    · exact ⟨_, rfl, hpost⟩
    · split
      · exact ⟨_, rfl, post_trans hpost (post_next hpost.1)⟩
      · exact ⟨_, rfl, hpost⟩

theorem step_retst {n : Nat} (ih : AdeqPack n) :
    ∀ s : PState, WfS s → s.curr ≠ Token.End → 10 * mu s + 1 < n + 1 →
      ∃ out, parse_return_statement (n + 1) s = Option.some out ∧ PostOut s out := by
  intro s hW hcurr hb
  simp only [parse_return_statement]
  have hstrict := mu_next_lt_of_curr hcurr
  obtain ⟨out1, hrec, hpost⟩ := ih.expr Precedence.Lowest (next_token s) (wfS_next hW)
    (by omega)
  rw [hrec]
  cases out1 with
  | panicked t1 => exact ⟨_, rfl, trivial⟩
  | ok e? s2 =>
    simp only [pbind]
    have hP2 : Post s s2 := post_trans (post_next hW) hpost
    split
    · exact ⟨_, rfl, hP2⟩
    · split
      · exact ⟨_, rfl, post_trans hP2 (post_next hP2.1)⟩
      · exact ⟨_, rfl, hP2⟩

theorem step_blockst {n : Nat} (ih : AdeqPack n) :
    ∀ s : PState, WfS s → 10 * mu s + 8 < n + 1 →
      ∃ out, parse_block_statement (n + 1) s = Option.some out ∧ PostOut s out := by
  intro s hW hb
  simp only [parse_block_statement]
  obtain ⟨out1, hrec, hpost⟩ := ih.blockloop [] (next_token s) (wfS_next hW)
    (by have := mu_next_le s; omega)
  rw [hrec]
  cases out1 with
  | panicked t1 => exact ⟨_, rfl, trivial⟩
  | ok p t => exact ⟨_, rfl, post_trans (post_next hW) hpost⟩

theorem step_blockloop {n : Nat} (ih : AdeqPack n) :
    ∀ (acc : List Statement) (s : PState), WfS s → 10 * mu s + 7 < n + 1 →
      ∃ out, parse_block_loop (n + 1) acc s = Option.some out ∧ PostOut s out := by
  intro acc s hW hb
  simp only [parse_block_loop]
  split
  · split
    · exact ⟨_, rfl, post_next hW⟩
    · exact ⟨_, rfl, post_refl hW⟩
  · rename_i hc
    have hcEnd : s.curr ≠ Token.End := fun h => hc (Or.inr h)
    obtain ⟨out1, hrec, hpost⟩ := ih.stmt s hW hcEnd (by omega)
    rw [hrec]
    cases out1 with
    | panicked t1 => exact ⟨_, rfl, trivial⟩
    | ok st? s1 =>
      simp only [pbind]
      have hble : 10 * mu (next_token s1) + 7 < n := by
        by_cases hE : s1.curr = Token.End
        · have h0 : mu s1 = 0 := mu_zero_of_end hpost.1 hE
          have h1 := mu_next_le s1
          have h2 := mu_pos_of_curr hcEnd
          omega
        · have h1 := mu_next_lt_of_curr hE
          have h2 := hpost.2.1
          omega
      obtain ⟨out2, hrec2, hpost2⟩ := ih.blockloop (acc ++ st?.toList) (next_token s1)
        (wfS_next hpost.1) hble
      rw [hrec2]
      cases out2 with
      | panicked t2 => exact ⟨_, rfl, trivial⟩
      | ok p t2 =>
        exact ⟨_, rfl, post_trans (post_trans hpost (post_next hpost.1)) hpost2⟩

theorem step_param {n : Nat} (ih : AdeqPack n) :
    ∀ (acc : List Token) (s : PState), WfS s → 10 * mu s + 1 < n + 1 →
      ∃ out, parse_fn_param_loop (n + 1) acc s = Option.some out ∧ PostOut s out := by
  intro acc s hW hb
  simp only [parse_fn_param_loop]
  split
  · exact ⟨_, rfl, post_refl hW⟩
  · split
    all_goals try exact ⟨_, rfl, post_next hW⟩
    all_goals
      (rename_i heq
       rw [next_token_curr] at heq
       have hpk : s.peek ≠ Token.End := by simp [heq]
       have hstrict := mu_next_lt_of_peek hpk
       split
       · obtain ⟨out1, hrec, hpost⟩ := ih.param _ (next_token (next_token s))
           (wfS_next (wfS_next hW)) (by have := mu_next_le (next_token s); omega)
         rw [hrec]
         cases out1 with
         | panicked t1 => exact ⟨_, rfl, trivial⟩
         | ok r t =>
           exact ⟨_, rfl,
             post_trans (post_trans (post_next hW) (post_next (wfS_next hW))) hpost⟩
       · obtain ⟨out1, hrec, hpost⟩ := ih.param _ (next_token s) (wfS_next hW) (by omega)
         rw [hrec]
         cases out1 with
         | panicked t1 => exact ⟨_, rfl, trivial⟩
         | ok r t => exact ⟨_, rfl, post_trans (post_next hW) hpost⟩)

theorem step_letst {n : Nat} (ih : AdeqPack n) :
    ∀ s : PState, WfS s → 10 * mu s + 1 < n + 1 →
      ∃ out, parse_let_statement (n + 1) s = Option.some out ∧ PostOut s out := by
  intro s hW hb
  simp only [parse_let_statement]
  split
  · rename_i heq
    have hpk : s.peek ≠ Token.End := by simp [heq]
    have hstrict := mu_next_lt_of_peek hpk
    split
    · exact ⟨_, rfl, post_next hW⟩
    · split
      · have hPe : Post s (expect_peek (next_token s) Token.Assign).2 :=
          post_trans (post_next hW) (expect_peek_post (wfS_next hW) _)
        have hme := (expect_peek_post (wfS_next hW) Token.Assign).2.1
        have hms := mu_next_le (expect_peek (next_token s) Token.Assign).2
        obtain ⟨out1, hrec, hpost⟩ := ih.expr Precedence.Lowest
          (next_token (expect_peek (next_token s) Token.Assign).2) (wfS_next hPe.1)
          (by omega)
        rw [hrec]
        cases out1 with
        | panicked t1 => exact ⟨_, rfl, trivial⟩
        | ok e? s4 =>
          simp only [pbind]
          have hP4 : Post s s4 := post_trans (post_trans hPe (post_next hPe.1)) hpost
          split
          · exact ⟨_, rfl, hP4⟩
          · split
            · exact ⟨_, rfl, post_trans hP4 (post_next hP4.1)⟩
            · exact ⟨_, rfl, hP4⟩
      · exact ⟨_, rfl, post_trans (post_next hW) (expect_peek_post (wfS_next hW) _)⟩
  · exact ⟨_, rfl, post_refl hW⟩

theorem step_call {n : Nat} (ih : AdeqPack n) :
    ∀ (function : Expression) (s : PState), WfS s → 10 * mu s + 6 < n + 1 →
      ∃ out, parse_call_expression (n + 1) function s = Option.some out ∧ PostOut s out := by
  intro function s hW hb
  simp only [parse_call_expression]
  split
  · exact ⟨_, rfl, post_next hW⟩
  · obtain ⟨out1, hrec, hpost⟩ := ih.expr Precedence.Lowest (next_token s) (wfS_next hW)
      (by have := mu_next_le s; omega)
    rw [hrec]
    cases out1 with
    | panicked t1 => exact ⟨_, rfl, trivial⟩
    | ok a? s2 =>
      simp only [pbind]
      have hP2 : Post s s2 := post_trans (post_next hW) hpost
      split
      · exact ⟨_, rfl, hP2⟩
      · rename_i a
        obtain ⟨out2, hrec2, hpost2⟩ := ih.args [a] s2 hP2.1 (by have := hP2.2.1; omega)
        rw [hrec2]
        cases out2 with
        | panicked t2 => exact ⟨_, rfl, trivial⟩
        | ok args? s3 =>
          simp only [pbind]
          have hP3 : Post s s3 := post_trans hP2 hpost2
          split
          · exact ⟨_, rfl, hP3⟩
          · split <;> exact ⟨_, rfl, post_trans hP3 (expect_peek_post hP3.1 _)⟩

theorem step_args {n : Nat} (ih : AdeqPack n) :
    ∀ (acc : List Expression) (s : PState), WfS s → 10 * mu s + 5 < n + 1 →
      ∃ out, parse_call_args_loop (n + 1) acc s = Option.some out ∧ PostOut s out := by
  intro acc s hW hb
  simp only [parse_call_args_loop]
  split
  · rename_i hcomma
    have hpk : s.peek ≠ Token.End := by simp [hcomma]
    have hstrict := mu_next_lt_of_peek hpk
    have hm2 := mu_next_le (next_token s)
    obtain ⟨out1, hrec, hpost⟩ := ih.expr Precedence.Lowest (next_token (next_token s))
      (wfS_next (wfS_next hW)) (by omega)
    rw [hrec]
    cases out1 with
    | panicked t1 => exact ⟨_, rfl, trivial⟩
    | ok a? s2 =>
      simp only [pbind]
      have hP2 : Post s s2 :=
        post_trans (post_next hW) (post_trans (post_next (wfS_next hW)) hpost)
      split
      · exact ⟨_, rfl, hP2⟩
      · rename_i a
        obtain ⟨out2, hrec2, hpost2⟩ := ih.args (acc ++ [a]) s2 hP2.1
          (by have h1 := hpost.2.1; omega)
        rw [hrec2]
        cases out2 with
        | panicked t2 => exact ⟨_, rfl, trivial⟩
        | ok r t2 => exact ⟨_, rfl, post_trans hP2 hpost2⟩
  · exact ⟨_, rfl, post_refl hW⟩

theorem step_ifex {n : Nat} (ih : AdeqPack n) :
    ∀ s : PState, WfS s → s.curr ≠ Token.End → 10 * mu s + 2 < n + 1 →
      ∃ out, parse_if_expression (n + 1) s = Option.some out ∧ PostOut s out := by
  intro s hW hcurr hb
  simp only [parse_if_expression]
  have hstrict := mu_next_lt_of_curr hcurr
  obtain ⟨out1, hrec, hpost⟩ := ih.expr Precedence.Lowest (next_token s) (wfS_next hW)
    (by omega)
  rw [hrec]
  cases out1 with
  | panicked t1 => exact ⟨_, rfl, trivial⟩
  | ok c? s2 =>
    simp only [pbind]
    have hP2 : Post s s2 := post_trans (post_next hW) hpost
    have hm2 : mu s2 ≤ mu (next_token s) := hpost.2.1
    split
    · exact ⟨_, rfl, hP2⟩
    · split
      · have hPE : Post s (expect_peek s2 Token.LeftBrace).2 :=
          post_trans hP2 (expect_peek_post hP2.1 _)
        have hmE := (expect_peek_post hP2.1 Token.LeftBrace).2.1
        have hPb : Post s (next_token (expect_peek s2 Token.LeftBrace).2) :=
          post_trans hPE (post_next hPE.1)
        have hmb := mu_next_le (expect_peek s2 Token.LeftBrace).2
        obtain ⟨out2, hrec2, hpost2⟩ := ih.blockst
          (next_token (expect_peek s2 Token.LeftBrace).2) hPb.1 (by omega)
        rw [hrec2]
        cases out2 with
        | panicked t2 => exact ⟨_, rfl, trivial⟩
        | ok consequence s5 =>
          simp only [pbind]
          have hP5 : Post s s5 := post_trans hPb hpost2
          have hm5 : mu s5 ≤ mu (next_token (expect_peek s2 Token.LeftBrace).2) :=
            hpost2.2.1
          split
          · split
            · have hPE2 : Post s (expect_peek (next_token s5) Token.LeftBrace).2 :=
                post_trans (post_trans hP5 (post_next hP5.1))
                  (expect_peek_post (wfS_next hP5.1) _)
              have hmE2 := (expect_peek_post (wfS_next hP5.1) Token.LeftBrace).2.1
              have hm6 := mu_next_le s5
              have hPb2 : Post s
                  (next_token (expect_peek (next_token s5) Token.LeftBrace).2) :=
                post_trans hPE2 (post_next hPE2.1)
              have hmb2 := mu_next_le (expect_peek (next_token s5) Token.LeftBrace).2
              obtain ⟨out3, hrec3, hpost3⟩ := ih.blockst
                (next_token (expect_peek (next_token s5) Token.LeftBrace).2) hPb2.1
                (by omega)
              rw [hrec3]
              cases out3 with
              | panicked t3 => exact ⟨_, rfl, trivial⟩
              | ok alternative s9 => exact ⟨_, rfl, post_trans hPb2 hpost3⟩
            · exact ⟨_, rfl, post_trans (post_trans hP5 (post_next hP5.1))
                (expect_peek_post (wfS_next hP5.1) _)⟩
          · exact ⟨_, rfl, hP5⟩
      · exact ⟨_, rfl, post_trans hP2 (expect_peek_post hP2.1 _)⟩

theorem step_fnlit {n : Nat} (ih : AdeqPack n) :
    ∀ s : PState, WfS s → 10 * mu s + 2 < n + 1 →
      ∃ out, parse_function_literal (n + 1) s = Option.some out ∧ PostOut s out := by
  intro s hW hb
  simp only [parse_function_literal]
  obtain ⟨out1, hrec, hpost⟩ := ih.param [] s hW (by omega)
  rw [hrec]
  cases out1 with
  | panicked t1 => exact ⟨_, rfl, trivial⟩
  | ok params? s1 =>
    simp only [pbind]
    split
    · exact ⟨_, rfl, hpost⟩
    · rename_i params
      split
      · rename_i harr
        obtain ⟨heqA, hpkA⟩ := expect_peek_true harr
        have hstrictA : mu (expect_peek s1 Token.Arrow).2 < mu s1 := by
          rw [heqA]; exact mu_next_lt_of_peek (by simp [hpkA])
        have hPa : Post s (expect_peek s1 Token.Arrow).2 :=
          post_trans hpost (expect_peek_post hpost.1 _)
        have hms := mu_next_le (expect_peek s1 Token.Arrow).2
        have hmu1 : mu s1 ≤ mu s := hpost.2.1
        have hPs3 : Post s (next_token (expect_peek s1 Token.Arrow).2) :=
          post_trans hPa (post_next hPa.1)
        split
        · obtain ⟨out2, hrec2, hpost2⟩ := ih.blockst
            (next_token (expect_peek s1 Token.Arrow).2) hPs3.1 (by omega)
          rw [hrec2]
          cases out2 with
          | panicked t2 => exact ⟨_, rfl, trivial⟩
          | ok block s4 =>
            simp only [pbind]
            have hP4 : Post s s4 := post_trans hPs3 hpost2
            split
            all_goals try exact ⟨_, rfl, hP4⟩
            all_goals split <;> exact ⟨_, rfl, hP4⟩
        · obtain ⟨out2, hrec2, hpost2⟩ := ih.expr Precedence.Lowest
            (next_token (expect_peek s1 Token.Arrow).2) hPs3.1 (by omega)
          rw [hrec2]
          cases out2 with
          | panicked t2 => exact ⟨_, rfl, trivial⟩
          | ok e? s4 =>
            simp only [pbind]
            have hP4 : Post s s4 := post_trans hPs3 hpost2
            split
            · exact ⟨_, rfl, hP4⟩
            · split
              · exact ⟨_, rfl, post_trans hP4 (post_next hP4.1)⟩
              · exact ⟨_, rfl, hP4⟩
      · exact ⟨_, rfl, post_trans hpost (expect_peek_post hpost.1 _)⟩

theorem step_stmt {n : Nat} (ih : AdeqPack n) :
    ∀ s : PState, WfS s → s.curr ≠ Token.End → 10 * mu s + 6 < n + 1 →
      ∃ out, parse_statement (n + 1) s = Option.some out ∧ PostOut s out := by
  intro s hW hcurr hb
  simp only [parse_statement]
  split
  · exact ih.letst s hW (by omega)
  · exact ih.retst s hW hcurr (by omega)
  · obtain ⟨r0, t0, hrec, hpost⟩ := type_statement_adeq n s hW hcurr (by omega)
    split
    · rename_i heq2
      rw [hrec] at heq2
      exact Option.noConfusion heq2
    · rename_i st? s1 heq2
      rw [hrec] at heq2
      injection heq2 with h
      injection h with h1 h2x
      subst h2x
      exact ⟨_, rfl, hpost⟩
  · exact ih.exprst s hW (by omega)

theorem step_prog {n : Nat} (ih : AdeqPack n) :
    ∀ s : PState, WfS s → 10 * mu s + 7 < n + 1 →
      ∃ out, parse_program (n + 1) s = Option.some out ∧ PostOut s out ∧
        (∀ p t, out = POut.ok p t → t.curr = Token.End) := by
  intro s hW hb
  simp only [parse_program]
  split
  · rename_i hEnd
    refine ⟨_, rfl, post_refl hW, ?_⟩
    intro p t hpt
    injection hpt with h1 h2
    exact h2 ▸ hEnd
  · rename_i hc
    obtain ⟨out1, hrec, hpost⟩ := ih.stmt s hW hc (by omega)
    rw [hrec]
    cases out1 with
    | panicked t1 => exact ⟨_, rfl, trivial, fun p t hpt => POut.noConfusion hpt⟩
    | ok st? s1 =>
      simp only [pbind]
      have hble : 10 * mu (next_token s1) + 7 < n := by
        by_cases hE : s1.curr = Token.End
        · have h0 : mu s1 = 0 := mu_zero_of_end hpost.1 hE
          have h1 := mu_next_le s1
          have h2 := mu_pos_of_curr hc
          omega
        · have h1 := mu_next_lt_of_curr hE
          have h2 := hpost.2.1
          omega
      obtain ⟨out2, hrec2, hpost2, hend2⟩ := ih.prog (next_token s1)
        (wfS_next hpost.1) hble
      rw [hrec2]
      cases out2 with
      | panicked t2 => exact ⟨_, rfl, trivial, fun p t hpt => POut.noConfusion hpt⟩
      | ok rest t2 =>
        refine ⟨_, rfl,
          post_trans (post_trans hpost (post_next hpost.1)) hpost2, ?_⟩
        intro p t hpt
        injection hpt with h1 h2
        exact h2 ▸ hend2 rest t2 rfl

theorem adeq_zero : AdeqPack 0 := by
  constructor <;> (intros; omega)

/-- Fuel adequacy for the whole expression/statement cluster, by induction on
the fuel. -/
theorem adeq_all : ∀ n, AdeqPack n := by
  intro n
  induction n with
  | zero => exact adeq_zero
  | succ n ihn =>
    exact ⟨step_expr ihn, step_dispatch ihn, step_iloop ihn, step_prefixe ihn,
      step_infixe ihn, step_call ihn, step_args ihn, step_ifex ihn, step_fnlit ihn,
      step_param ihn, step_blockst ihn, step_blockloop ihn, step_someex ihn,
      step_okex ihn, step_errex ihn, step_letst ihn, step_retst ihn, step_exprst ihn,
      step_stmt ihn, step_prog ihn⟩

/-- `Parser::new` yields a well-formed state whenever the lexer stream does
not contain the sentinel. -/
theorem wfS_init (ts : List Token) (h : Token.End ∉ ts) : WfS (initState ts) := by
  match ts with
  | [] => exact ⟨List.not_mem_nil _, fun _ => rfl, fun _ => rfl⟩
  | [a] =>
    have ha : a ≠ Token.End := by intro hE; exact h (by simp [hE])
    exact ⟨List.not_mem_nil _, fun _ => rfl, fun hc => absurd hc ha⟩
  | a :: b :: tl =>
    have ha : a ≠ Token.End := by intro hE; exact h (by simp [hE])
    have hb2 : b ≠ Token.End := by intro hE; exact h (by simp [hE])
    have htl : Token.End ∉ tl := by intro hm; exact h (by simp [hm])
    exact ⟨htl, fun hp => absurd hp hb2, fun hc => absurd hc ha⟩

/-- The two priming advances account for the tokens moved into the lookahead
window: `steps + |rem|` never undercounts the stream length. -/
theorem init_steps (ts : List Token) :
    ts.length ≤ (initState ts).steps + (initState ts).rem.length := by
  match ts with
  | [] => simp [initState, next_token]
  | [a] => simp [initState, next_token]
  | a :: b :: tl => simp [initState, next_token]; omega

/-!
The claims.
-/

/-- C1, counterexample: the infix loop of `parse_expression` has no dispatch
arm for `<=` or `%`, so parsing `a <= b` yields just `Identifier a` (the
`<= b` is left unconsumed) — not `Infix(<=, Identifier a, Identifier b)` as
claimed; likewise `a % b`. -/
theorem c1_counterexample :
    parse_expression 100 Precedence.Lowest
      (initState [Token.Identifier "a", Token.LTOrEqual, Token.Identifier "b"]) =
      Option.some (POut.ok (Option.some (Expression.Identifier (Token.Identifier "a")))
        ⟨[Token.Identifier "b"], Token.Identifier "a", Token.LTOrEqual, [], 2⟩) ∧
    Expression.Identifier (Token.Identifier "a") ≠
      Expression.InfixE InfixOp.LTOrEqual (Expression.Identifier (Token.Identifier "a"))
        (Expression.Identifier (Token.Identifier "b")) ∧
    parse_expression 100 Precedence.Lowest
      (initState [Token.Identifier "a", Token.Modulo, Token.Identifier "b"]) =
      Option.some (POut.ok (Option.some (Expression.Identifier (Token.Identifier "a")))
        ⟨[Token.Identifier "b"], Token.Identifier "a", Token.Modulo, [], 2⟩) ∧
    Expression.Identifier (Token.Identifier "a") ≠
      Expression.InfixE InfixOp.Modulo (Expression.Identifier (Token.Identifier "a"))
        (Expression.Identifier (Token.Identifier "b")) :=
  ⟨rfl, by simp, rfl, by simp⟩

/-- C1 (amended): although `token_to_precedence` ranks them, `<=`, `>=`, `%`
and `.` have no dispatch arm in the infix loop (just like `&` and `^`): when
such a token is the peek, the loop returns the left operand unchanged with
the state untouched, so no Infix node with those operators is ever
produced. -/
theorem c1_unwired_infix_operators (fuel : Nat) (precedence : Precedence)
    (left? : Option Expression) (s : PState)
    (h : s.peek = Token.LTOrEqual ∨ s.peek = Token.GTOrEqual ∨
         s.peek = Token.Modulo ∨ s.peek = Token.Period) :
    parse_infix_loop (fuel + 1) precedence left? s = Option.some (POut.ok left? s) := by
  rcases h with h | h | h | h <;>
    (simp only [parse_infix_loop]
     rw [h, if_neg (by decide)]
     split <;> rfl)

/-- Witness for C1 (amended) at `a <= b` after the prefix step. -/
theorem c1_unwired_infix_operators_witness :
    parse_infix_loop 1 Precedence.Lowest
      (Option.some (Expression.Identifier (Token.Identifier "a")))
      ⟨[Token.Identifier "b"], Token.Identifier "a", Token.LTOrEqual, [], 2⟩ =
      Option.some (POut.ok (Option.some (Expression.Identifier (Token.Identifier "a")))
        ⟨[Token.Identifier "b"], Token.Identifier "a", Token.LTOrEqual, [], 2⟩) :=
  c1_unwired_infix_operators 0 Precedence.Lowest _ _ (Or.inl rfl)

/-- C2: the block-form trailing-semicolon validation in
`parse_function_literal` inspects `peek` only after the entire block
(closing brace included) has been consumed, so it does not see the
semicolon inside the block: both `fn x -> { x + 1 }` and
`fn x -> { x + 1; }` parse successfully to a `Function` node with no
diagnostic, contradicting the intent documented by the code's own error
message ("Function block's last expression must not end with semicolon"). -/
theorem c2_semicolon_check_misfires :
    parse_program 100 (initState
      [Token.Fn, Token.Identifier "x", Token.Arrow, Token.LeftBrace,
       Token.Identifier "x", Token.Plus, Token.IntegerLiteral "1",
       Token.RightBrace]) =
      Option.some (POut.ok
        [Statement.Expression (Expression.Function [Token.Identifier "x"]
          [Statement.Expression (Expression.InfixE InfixOp.Plus
            (Expression.Identifier (Token.Identifier "x"))
            (Expression.Literal (Literal.Integer 1)))])]
        ⟨[], Token.End, Token.End, [], 11⟩) ∧
    parse_program 100 (initState
      [Token.Fn, Token.Identifier "x", Token.Arrow, Token.LeftBrace,
       Token.Identifier "x", Token.Plus, Token.IntegerLiteral "1",
       Token.SemiColon, Token.RightBrace]) =
      Option.some (POut.ok
        [Statement.Expression (Expression.Function [Token.Identifier "x"]
          [Statement.Expression (Expression.InfixE InfixOp.Plus
            (Expression.Identifier (Token.Identifier "x"))
            (Expression.Literal (Literal.Integer 1)))])]
        ⟨[], Token.End, Token.End, [], 12⟩) :=
  ⟨rfl, rfl⟩

/-- C3, counterexample: on `let = 5;` the let sub-parser fails (returns no
statement) without appending any diagnostic — its missing-identifier path
is silent, contradicting the claim that the failing sub-parser has already
appended an error. -/
theorem c3_counterexample :
    parse_let_statement 100
      (initState [Token.Let, Token.Assign, Token.IntegerLiteral "5", Token.SemiColon]) =
      Option.some (POut.ok Option.none
        ⟨[Token.IntegerLiteral "5", Token.SemiColon], Token.Let, Token.Assign, [], 2⟩) ∧
    (initState [Token.Let, Token.Assign, Token.IntegerLiteral "5",
      Token.SemiColon]).errors = [] :=
  ⟨rfl, rfl⟩

/-- C3 (amended): the let sub-parser's missing-identifier path and the type
sub-parser's missing-identifier path fail silently (no diagnostic); on
`let = 5;` the single diagnostic of the overall parse comes from the
expression-statement recovery pass ("No prefix parse function for Assign
found"), not from the let sub-parser, and no `Let` statement is added. -/
theorem c3_silent_missing_identifier_paths :
    parse_let_statement 100
      (initState [Token.Let, Token.Assign, Token.IntegerLiteral "5", Token.SemiColon]) =
      Option.some (POut.ok Option.none
        ⟨[Token.IntegerLiteral "5", Token.SemiColon], Token.Let, Token.Assign, [], 2⟩) ∧
    parse_type_statement 100
      (initState [Token.TypeKw, Token.IntegerLiteral "5", Token.SemiColon]) =
      Option.some (Option.none,
        ⟨[], Token.IntegerLiteral "5", Token.SemiColon, [], 3⟩) ∧
    parse_program 100
      (initState [Token.Let, Token.Assign, Token.IntegerLiteral "5", Token.SemiColon]) =
      Option.some (POut.ok
        [Statement.Expression (Expression.Literal (Literal.Integer 5))]
        ⟨[], Token.End, Token.End,
         [ParseError.Log "No prefix parse function for Assign found"], 6⟩) :=
  ⟨rfl, rfl, rfl⟩

/-- C4, counterexample: the advance count does not equal the token-stream
length — on the empty stream the two priming advances already give 2 ≠ 0 —
and the pass does not always consume the entire stream: on `fn + + 1` the
infix loop calls `left.unwrap()` on `None` and the parse panics, leaving a
token unread. -/
theorem c4_counterexample :
    parse_program 100 (initState []) =
      Option.some (POut.ok [] ⟨[], Token.End, Token.End, [], 2⟩) ∧
    ([] : List Token).length = 0 ∧ (2 : Nat) ≠ 0 ∧
    parse_program 100
      (initState [Token.Fn, Token.Plus, Token.Plus, Token.IntegerLiteral "1"]) =
      Option.some (POut.panicked
        ⟨[], Token.Plus, Token.IntegerLiteral "1",
         [ParseError.Log "expected identifier in function parameters, got Plus"], 4⟩) :=
  ⟨rfl, rfl, by decide, rfl⟩

/-- C4 (amended): for every finite sentinel-free token stream, parse_program
run with fuel `10 * mu + 8` (an affine function of the stream length) does
not exhaust its fuel: it either panics on an internal `unwrap` of a failed
operand, or returns normally — and on normal return it has consumed the
entire stream (`rem = []`, `curr = peek = End`) and the number of cursor
advances (`steps`, counting the two priming advances) is at least the
stream length. -/
theorem c4_parse_program_terminates (ts : List Token) (h : Token.End ∉ ts) :
    ∃ out, parse_program (10 * mu (initState ts) + 8) (initState ts) = Option.some out ∧
      ∀ p t, out = POut.ok p t →
        t.rem = [] ∧ t.curr = Token.End ∧ t.peek = Token.End ∧ ts.length ≤ t.steps := by
  obtain ⟨out, hrec, hpost, hend⟩ := (adeq_all (10 * mu (initState ts) + 8)).prog
    (initState ts) (wfS_init ts h) (by omega)
  refine ⟨out, hrec, ?_⟩
  intro p t hpt
  have hcurr : t.curr = Token.End := hend p t hpt
  rw [hpt] at hpost
  have hWt : WfS t := hpost.1
  have hpk : t.peek = Token.End := hWt.2.2 hcurr
  have hrem : t.rem = [] := hWt.2.1 hpk
  refine ⟨hrem, hcurr, hpk, ?_⟩
  have hsteps := hpost.2.2
  have hinit := init_steps ts
  rw [hrem] at hsteps
  simp only [List.length_nil, Nat.add_zero] at hsteps
  omega

/-- Witness for C4 (amended) on the one-token stream `let`. -/
theorem c4_parse_program_terminates_witness :
    Token.End ∉ [Token.Let] ∧
    (∃ out, parse_program (10 * mu (initState [Token.Let]) + 8)
        (initState [Token.Let]) = Option.some out ∧
      ∀ p t, out = POut.ok p t →
        t.rem = [] ∧ t.curr = Token.End ∧ t.peek = Token.End ∧
          [Token.Let].length ≤ t.steps) :=
  ⟨by decide, c4_parse_program_terminates [Token.Let] (by decide)⟩

/-- C5: `1 + 2 * 3` parses to `Infix(+, 1, Infix(*, 2, 3))` — the
multiplication binds tighter — and the equal-precedence chain `1 + 2 + 3`
binds left-associatively to `Infix(+, Infix(+, 1, 2), 3)`. -/
theorem c5_precedence_and_associativity :
    parse_expression 100 Precedence.Lowest (initState
      [Token.IntegerLiteral "1", Token.Plus, Token.IntegerLiteral "2",
       Token.Product, Token.IntegerLiteral "3"]) =
      Option.some (POut.ok (Option.some (Expression.InfixE InfixOp.Plus
        (Expression.Literal (Literal.Integer 1))
        (Expression.InfixE InfixOp.Product
          (Expression.Literal (Literal.Integer 2))
          (Expression.Literal (Literal.Integer 3)))))
        ⟨[], Token.IntegerLiteral "3", Token.End, [], 6⟩) ∧
    parse_expression 100 Precedence.Lowest (initState
      [Token.IntegerLiteral "1", Token.Plus, Token.IntegerLiteral "2",
       Token.Plus, Token.IntegerLiteral "3"]) =
      Option.some (POut.ok (Option.some (Expression.InfixE InfixOp.Plus
        (Expression.InfixE InfixOp.Plus
          (Expression.Literal (Literal.Integer 1))
          (Expression.Literal (Literal.Integer 2)))
        (Expression.Literal (Literal.Integer 3))))
        ⟨[], Token.IntegerLiteral "3", Token.End, [], 6⟩) :=
  ⟨rfl, rfl⟩

/-- C6: `Some`, `Ok` and `Error` parse their operand at `Lowest` precedence
and so absorb a following infix chain — `Some 1 + 2` is
`OptionSome(Infix(+, 1, 2))`, not `Infix(+, Some 1, 2)` — while `None`
takes no operand. -/
theorem c6_constructors_bind_lowest :
    parse_expression 100 Precedence.Lowest (initState
      [Token.Some, Token.IntegerLiteral "1", Token.Plus, Token.IntegerLiteral "2"]) =
      Option.some (POut.ok (Option.some (Expression.OptionSome
        (Expression.InfixE InfixOp.Plus
          (Expression.Literal (Literal.Integer 1))
          (Expression.Literal (Literal.Integer 2)))))
        ⟨[], Token.IntegerLiteral "2", Token.End, [], 5⟩) ∧
    Expression.OptionSome (Expression.InfixE InfixOp.Plus
        (Expression.Literal (Literal.Integer 1))
        (Expression.Literal (Literal.Integer 2))) ≠
      Expression.InfixE InfixOp.Plus
        (Expression.OptionSome (Expression.Literal (Literal.Integer 1)))
        (Expression.Literal (Literal.Integer 2)) ∧
    parse_expression 100 Precedence.Lowest (initState
      [Token.Ok, Token.IntegerLiteral "1", Token.Plus, Token.IntegerLiteral "2"]) =
      Option.some (POut.ok (Option.some (Expression.ResultOk
        (Expression.InfixE InfixOp.Plus
          (Expression.Literal (Literal.Integer 1))
          (Expression.Literal (Literal.Integer 2)))))
        ⟨[], Token.IntegerLiteral "2", Token.End, [], 5⟩) ∧
    parse_expression 100 Precedence.Lowest (initState
      [Token.Error, Token.IntegerLiteral "1", Token.Plus, Token.IntegerLiteral "2"]) =
      Option.some (POut.ok (Option.some (Expression.ResultErr
        (Expression.InfixE InfixOp.Plus
          (Expression.Literal (Literal.Integer 1))
          (Expression.Literal (Literal.Integer 2)))))
        ⟨[], Token.IntegerLiteral "2", Token.End, [], 5⟩) ∧
    parse_expression 100 Precedence.Lowest (initState [Token.None]) =
      Option.some (POut.ok (Option.some Expression.OptionNone)
        ⟨[], Token.None, Token.End, [], 2⟩) :=
  ⟨rfl, by simp, rfl, rfl, rfl⟩

/-- C7: `token_to_precedence` assigns `&` and `^` the `BitwiseOp` level, yet
the infix loop has no dispatch arm for them (and `parse_infix_expression`'s
operator mapping has none either): with such a peek the loop returns the
left operand unchanged, so no Infix node with `&` or `^` is ever produced —
concretely, `a & b` parses to just `Identifier a`. -/
theorem c7_bitwise_never_consumed (fuel : Nat) (precedence : Precedence)
    (left? : Option Expression) (s : PState)
    (h : s.peek = Token.Ampersand ∨ s.peek = Token.Caret) :
    token_to_precedence Token.Ampersand = Precedence.BitwiseOp ∧
    token_to_precedence Token.Caret = Precedence.BitwiseOp ∧
    infixOfToken Token.Ampersand = Option.none ∧
    infixOfToken Token.Caret = Option.none ∧
    parse_infix_loop (fuel + 1) precedence left? s = Option.some (POut.ok left? s) ∧
    parse_expression 100 Precedence.Lowest
      (initState [Token.Identifier "a", Token.Ampersand, Token.Identifier "b"]) =
      Option.some (POut.ok (Option.some (Expression.Identifier (Token.Identifier "a")))
        ⟨[Token.Identifier "b"], Token.Identifier "a", Token.Ampersand, [], 2⟩) := by
  refine ⟨rfl, rfl, rfl, rfl, ?_, rfl⟩
  rcases h with h | h <;>
    (simp only [parse_infix_loop]
     rw [h, if_neg (by decide)]
     split <;> rfl)

/-- Witness for C7 at `a & b` after the prefix step. -/
theorem c7_bitwise_never_consumed_witness :
    token_to_precedence Token.Ampersand = Precedence.BitwiseOp ∧
    token_to_precedence Token.Caret = Precedence.BitwiseOp ∧
    infixOfToken Token.Ampersand = Option.none ∧
    infixOfToken Token.Caret = Option.none ∧
    parse_infix_loop 1 Precedence.Lowest
      (Option.some (Expression.Identifier (Token.Identifier "a")))
      ⟨[Token.Identifier "b"], Token.Identifier "a", Token.Ampersand, [], 2⟩ =
      Option.some (POut.ok (Option.some (Expression.Identifier (Token.Identifier "a")))
        ⟨[Token.Identifier "b"], Token.Identifier "a", Token.Ampersand, [], 2⟩) ∧
    parse_expression 100 Precedence.Lowest
      (initState [Token.Identifier "a", Token.Ampersand, Token.Identifier "b"]) =
      Option.some (POut.ok (Option.some (Expression.Identifier (Token.Identifier "a")))
        ⟨[Token.Identifier "b"], Token.Identifier "a", Token.Ampersand, [], 2⟩) :=
  c7_bitwise_never_consumed 0 Precedence.Lowest _ _ (Or.inl rfl)

/-- C8: `type Shape = | Circle of Float | Square of Float | Point;` parses
to a `Type` statement holding a `Union` of exactly the three variants in
declaration order — `Circle` and `Square` carrying the `Float` reference,
`Point` carrying none — with no diagnostics. -/
theorem c8_union_variants_in_order :
    parse_program 100 (initState
      [Token.TypeKw, Token.Identifier "Shape", Token.Assign, Token.Vbar,
       Token.Identifier "Circle", Token.Of, Token.Float, Token.Vbar,
       Token.Identifier "Square", Token.Of, Token.Float, Token.Vbar,
       Token.Identifier "Point", Token.SemiColon]) =
      Option.some (POut.ok
        [Statement.TypeDecl (Token.Identifier "Shape") (TypeDef.Union
          [(Token.Identifier "Circle",
            Option.some (Alias.mk (TypeConstructor.BuiltIn Constructor.Float) [])),
           (Token.Identifier "Square",
            Option.some (Alias.mk (TypeConstructor.BuiltIn Constructor.Float) [])),
           (Token.Identifier "Point", Option.none)])]
        ⟨[], Token.End, Token.End, [], 16⟩) :=
  rfl

/-- C9: in record-field type position only `List` among the parametrized
constructors is accepted (recursing through the record vocabulary); a field
type beginning with `Option`, `Result` or `Map` always falls through to the
"Expected type name" diagnostic and the record declaration fails, even
though those constructors are accepted in union/alias position. -/
theorem c9_record_field_type_vocabulary (fuel : Nat) (s : PState)
    (h : s.curr = Token.Option ∨ s.curr = Token.Result ∨ s.curr = Token.Map) :
    parse_record_type_ann (fuel + 1) s =
      Option.some (Option.none,
        { s with errors := s.errors ++
            [ParseError.Log ("Expected type name, got " ++ tokenDebug s.curr)] }) ∧
    parse_type_statement 100 (initState
      [Token.TypeKw, Token.Identifier "P", Token.Assign, Token.LeftBrace,
       Token.Identifier "x", Token.Colon, Token.Option, Token.IntType,
       Token.RightBrace, Token.SemiColon]) =
      Option.some (Option.none,
        ⟨[Token.RightBrace, Token.SemiColon], Token.Option, Token.IntType,
         [ParseError.Log "Expected type name, got Option"], 8⟩) ∧
    parse_type_statement 100 (initState
      [Token.TypeKw, Token.Identifier "Q", Token.Assign, Token.LeftBrace,
       Token.Identifier "x", Token.Colon, Token.List, Token.IntType,
       Token.RightBrace, Token.SemiColon]) =
      Option.some (Option.some (Statement.TypeDecl (Token.Identifier "Q")
        (TypeDef.Record [(Token.Identifier "x",
          Alias.mk (TypeConstructor.BuiltIn Constructor.List)
            [Alias.mk (TypeConstructor.BuiltIn Constructor.Int) []])])),
        ⟨[], Token.SemiColon, Token.End, [], 11⟩) := by
  refine ⟨?_, rfl, rfl⟩
  rcases h with h | h | h <;>
    (simp only [parse_record_type_ann]
     rw [h])

/-- Witness for C9 at a state whose current token is `Option`. -/
theorem c9_record_field_type_vocabulary_witness :
    parse_record_type_ann 1
      ⟨[], Token.Option, Token.IntType, [], 8⟩ =
      Option.some (Option.none,
        ⟨[], Token.Option, Token.IntType,
         [ParseError.Log "Expected type name, got Option"], 8⟩) ∧
    parse_type_statement 100 (initState
      [Token.TypeKw, Token.Identifier "P", Token.Assign, Token.LeftBrace,
       Token.Identifier "x", Token.Colon, Token.Option, Token.IntType,
       Token.RightBrace, Token.SemiColon]) =
      Option.some (Option.none,
        ⟨[Token.RightBrace, Token.SemiColon], Token.Option, Token.IntType,
         [ParseError.Log "Expected type name, got Option"], 8⟩) ∧
    parse_type_statement 100 (initState
      [Token.TypeKw, Token.Identifier "Q", Token.Assign, Token.LeftBrace,
       Token.Identifier "x", Token.Colon, Token.List, Token.IntType,
       Token.RightBrace, Token.SemiColon]) =
      Option.some (Option.some (Statement.TypeDecl (Token.Identifier "Q")
        (TypeDef.Record [(Token.Identifier "x",
          Alias.mk (TypeConstructor.BuiltIn Constructor.List)
            [Alias.mk (TypeConstructor.BuiltIn Constructor.Int) []])])),
        ⟨[], Token.SemiColon, Token.End, [], 11⟩) :=
  c9_record_field_type_vocabulary 0 ⟨[], Token.Option, Token.IntType, [], 8⟩ (Or.inl rfl)

/-- C10: each uppercase built-in type-name token is a valid prefix form in
expression position: the dispatch returns `Identifier(curr)` with the state
(and in particular the diagnostics list) untouched, rather than the
"no prefix parse rule" failure — concretely `List` alone parses to
`Identifier List`. -/
theorem c10_builtin_type_tokens_in_expressions (fuel : Nat) (s : PState)
    (h : s.curr = Token.Int ∨ s.curr = Token.Float ∨ s.curr = Token.String ∨
         s.curr = Token.Char ∨ s.curr = Token.Bool ∨ s.curr = Token.Unit ∨
         s.curr = Token.List ∨ s.curr = Token.Option ∨ s.curr = Token.Result ∨
         s.curr = Token.Map) :
    parse_prefix_dispatch (fuel + 1) s =
      Option.some (POut.ok (Option.some (Option.some
        (Expression.Identifier s.curr))) s) ∧
    parse_expression 100 Precedence.Lowest (initState [Token.List]) =
      Option.some (POut.ok (Option.some (Expression.Identifier Token.List))
        ⟨[], Token.List, Token.End, [], 2⟩) := by
  refine ⟨?_, rfl⟩
  rcases h with h | h | h | h | h | h | h | h | h | h <;>
    (simp only [parse_prefix_dispatch]
     rw [h])

/-- Witness for C10 at a state whose current token is `List`. -/
theorem c10_builtin_type_tokens_in_expressions_witness :
    parse_prefix_dispatch 1 ⟨[], Token.List, Token.End, [], 2⟩ =
      Option.some (POut.ok (Option.some (Option.some
        (Expression.Identifier Token.List))) ⟨[], Token.List, Token.End, [], 2⟩) ∧
    parse_expression 100 Precedence.Lowest (initState [Token.List]) =
      Option.some (POut.ok (Option.some (Expression.Identifier Token.List))
        ⟨[], Token.List, Token.End, [], 2⟩) := by
  have h := c10_builtin_type_tokens_in_expressions 0
    ⟨[], Token.List, Token.End, [], 2⟩ (by decide)
  exact h

end OPL
